import Mathlib

/-!
# Control-flow analysis for unassigned storage pointers

A shallow embedding of `libsolidity/analysis/ControlFlowGraph.h` and of
`ControlFlowAnalyzer` (`libsolidity/analysis/ControlFlowAnalyzer.cpp`): the
pass `checkUnassignedStorageReturnValues` and the entry point `analyze` with
`visit`.

Pointers are natural numbers.  A `CFGNode const*` is an index into the node
container; a `VariableOccurrence const*` is the pair of the node that owns the
occurrence and the position of the occurrence in that node's block (the
address of an element of `node->block.variableOccurrences`).  A
`std::set` is a `Finset`, a `std::map` whose `operator[]` creates empty
entries on demand is a total function, and the `std::stack` is a list whose
head is the top.
-/

namespace ControlFlow

/-- The enumeration `VariableOccurrence::Kind`, in declaration order. -/
inductive Kind where
  | Declaration
  | Access
  | Assignment
  | InlineAssembly
  deriving DecidableEq, Repr

/-- The value of `static_cast<size_t>(kind)`. -/
def Kind.toNat : Kind → Nat
  | .Declaration => 0
  | .Access => 1
  | .Assignment => 2
  | .InlineAssembly => 3

/-- The class `VariableOccurrence`: the declaration pointer, the kind and the
pointer to the AST node of the occurrence. -/
structure VariableOccurrence where
  declaration : Nat
  kind : Kind
  occurrence : Nat
  deriving DecidableEq, Repr

/-- The default member initialisers of `VariableOccurrence`. -/
instance : Inhabited VariableOccurrence := ⟨⟨0, Kind.Access, 0⟩⟩

/-- The struct `ControlFlowBlock`. -/
structure ControlFlowBlock where
  variableOccurrences : List VariableOccurrence
  returnStatement : Option Nat
  deriving DecidableEq, Repr

/-- The struct `CFGNode`. -/
structure CFGNode where
  entries : List Nat
  exits : List Nat
  block : ControlFlowBlock
  deriving DecidableEq, Repr

/-- A freshly allocated node: no edges, empty block. -/
instance : Inhabited CFGNode := ⟨⟨[], [], ⟨[], none⟩⟩⟩

/-- The storage of `CFG::NodeContainer`: node `n` is the `n`-th allocated node. -/
abbrev NodeContainer := List CFGNode

/-- Dereference of a `CFGNode const*`.  An index past the end of the container
reads as a node with no edges and an empty block. -/
def NodeContainer.node (g : NodeContainer) (n : Nat) : CFGNode :=
  g.getD n default

/-- The value of `node->exits`. -/
def NodeContainer.exits (g : NodeContainer) (n : Nat) : List Nat :=
  (g.node n).exits

/-- The value of `node->block.variableOccurrences`. -/
def NodeContainer.occurrences (g : NodeContainer) (n : Nat) : List VariableOccurrence :=
  (g.node n).block.variableOccurrences

/-- The members of the AST classes that the analyzer reads through the
pointers stored in a `VariableOccurrence` (`libsolidity/ast/AST.h` is not part
of these sources): `VariableDeclaration::id()`,
`declaration()->type()->dataStoredIn(DataLocation::Storage)` and
`ASTNode::id()`. -/
structure AST where
  declarationId : Nat → Nat
  dataStoredInStorage : Nat → Bool
  occurrenceId : Nat → Nat

/-- A `VariableOccurrence const*`: owning node and position in its block. -/
abbrev OccurrencePtr := Nat ×ₗ Nat

/-- The pointer to the occurrence at position `i` of the block of node `n`. -/
def occurrencePtr (n i : Nat) : OccurrencePtr := toLex (n, i)

/-- The node whose block holds the occurrence. -/
def OccurrencePtr.node (p : OccurrencePtr) : Nat := (ofLex p).1

/-- The position of the occurrence in its block. -/
def OccurrencePtr.index (p : OccurrencePtr) : Nat := (ofLex p).2

/-- Dereference of a `VariableOccurrence const*`. -/
def NodeContainer.deref (g : NodeContainer) (p : OccurrencePtr) : VariableOccurrence :=
  (g.occurrences p.node).getD p.index default

/-- The locals of `checkUnassignedStorageReturnValues` that live across
iterations of the worklist loop. -/
structure State where
  unassigned : Nat → Finset Nat
  unassignedAccess : Nat → Finset OccurrencePtr
  nodesToTraverse : List Nat

/-- Assignment to one entry of a map. -/
def setAt {α : Type} (m : Nat → α) (k : Nat) (v : α) : Nat → α :=
  fun j => if j = k then v else m j

/-- The state before the first iteration (lines 47-50): both maps empty and
the entry node on the stack. -/
def initialState (functionEntry : Nat) : State :=
  ⟨fun _ => ∅, fun _ => ∅, [functionEntry]⟩

/-- The body of the `switch` (lines 62-83) for the occurrence at position `i`
of node `node`, acting on `unassigned[node]` and `unassignedAccess[node]`. -/
def transferOccurrence (ast : AST) (node i : Nat) (vo : VariableOccurrence)
    (acc : Finset Nat × Finset OccurrencePtr) : Finset Nat × Finset OccurrencePtr :=
  match vo.kind with
  | .Assignment => (acc.1.erase vo.declaration, acc.2)
  | .InlineAssembly => (acc.1.erase vo.declaration, acc.2)
  | .Access =>
    if vo.declaration ∈ acc.1 then
      if ast.dataStoredInStorage vo.declaration then
        (acc.1, insert (occurrencePtr node i) acc.2)
      else acc
    else acc
  | .Declaration => (insert vo.declaration acc.1, acc.2)

/-- The range-for over the block (lines 60-84), from position `i` on. -/
def transferFrom (ast : AST) (node : Nat) :
    Nat → List VariableOccurrence → Finset Nat × Finset OccurrencePtr →
      Finset Nat × Finset OccurrencePtr
  | _, [], acc => acc
  | i, vo :: rest, acc => transferFrom ast node (i + 1) rest (transferOccurrence ast node i vo acc)

/-- The body of the loop over `node->exits` (lines 88-104) for one exit.  When
`exit` is `node` itself both unions leave the sets as they are. -/
def propagate (node : Nat) (s : State) (exit : Nat) : State :=
  let unassignedAtExit := s.unassigned exit ∪ s.unassigned node
  let unassignedAccessAtExit := s.unassignedAccess exit ∪ s.unassignedAccess node
  let needToTraverse : Bool :=
    decide ((s.unassigned exit).card < unassignedAtExit.card) ||
      decide ((s.unassignedAccess exit).card < unassignedAccessAtExit.card)
  { unassigned := setAt s.unassigned exit unassignedAtExit
    unassignedAccess := setAt s.unassignedAccess exit unassignedAccessAtExit
    nodesToTraverse := if needToTraverse then exit :: s.nodesToTraverse else s.nodesToTraverse }

/-- One iteration of the `while` loop (lines 55-105) that pops `node`. -/
def visitNode (ast : AST) (g : NodeContainer) (node : Nat) (rest : List Nat) (s : State) :
    State :=
  let r := transferFrom ast node 0 (g.occurrences node)
    (s.unassigned node, s.unassignedAccess node)
  (g.exits node).foldl (propagate node)
    { unassigned := setAt s.unassigned node r.1
      unassignedAccess := setAt s.unassignedAccess node r.2
      nodesToTraverse := rest }

/-- One iteration of the `while` loop; the identity once the stack is empty. -/
def step (ast : AST) (g : NodeContainer) (s : State) : State :=
  match s.nodesToTraverse with
  | [] => s
  | node :: rest => visitNode ast g node rest s

/-- The state after `k` iterations of the loop. -/
def iterations (ast : AST) (g : NodeContainer) (functionEntry : Nat) : Nat → State
  | 0 => initialState functionEntry
  | k + 1 => step ast g (iterations ast g functionEntry k)

/-- The `while` loop (lines 53-106) with an iteration budget: `none` when the
stack is still non-empty after `fuel` iterations. -/
def worklist (ast : AST) (g : NodeContainer) : Nat → State → Option State
  | 0, s => if s.nodesToTraverse.isEmpty then some s else none
  | fuel + 1, s =>
    if s.nodesToTraverse.isEmpty then some s else worklist ast g fuel (step ast g s)

/-- The comparison lambda handed to `sort` (lines 117-124). -/
def occurrenceLess (ast : AST) (g : NodeContainer) (lhs rhs : OccurrencePtr) : Bool :=
  if ast.occurrenceId (g.deref lhs).occurrence < ast.occurrenceId (g.deref rhs).occurrence then
    true
  else if ast.occurrenceId (g.deref rhs).occurrence < ast.occurrenceId (g.deref lhs).occurrence
  then false
  else if ast.declarationId (g.deref lhs).declaration < ast.declarationId (g.deref rhs).declaration
  then true
  else if ast.declarationId (g.deref rhs).declaration < ast.declarationId (g.deref lhs).declaration
  then false
  else decide ((g.deref lhs).kind.toNat < (g.deref rhs).kind.toNat)

/-- The vector built from the set (lines 110-113): its members in ascending
pointer order, the occurrences of one block in block order and the blocks in
the order of their nodes.  The order only decides how `sort` arranges
occurrences that compare equal. -/
def accessVector (accesses : Finset OccurrencePtr) : List OccurrencePtr :=
  Quot.liftOn accesses.val (List.insertionSort (· ≤ ·)) fun a b h =>
    List.eq_of_perm_of_sorted
      ((List.perm_insertionSort (· ≤ ·) a).trans (h.trans (List.perm_insertionSort (· ≤ ·) b).symm))
      (List.sorted_insertionSort (· ≤ ·) a) (List.sorted_insertionSort (· ≤ ·) b)

/-- The call of `sort` (lines 114-125), as an insertion sort with the source's
comparison: `lhs` stays in front of `rhs` unless the comparison puts `rhs`
first.  Another sorting algorithm can only differ on occurrences that compare
equal. -/
def sortAccesses (ast : AST) (g : NodeContainer) (l : List OccurrencePtr) : List OccurrencePtr :=
  l.insertionSort (fun lhs rhs => occurrenceLess ast g rhs lhs = false)

/-- The reporting part (lines 108-133): the occurrences for which
`m_errorReporter.typeError` is called, in call order. -/
def report (ast : AST) (g : NodeContainer) (functionExit : Nat) (s : State) :
    List OccurrencePtr :=
  if s.unassignedAccess functionExit = ∅ then []
  else sortAccesses ast g (accessVector (s.unassignedAccess functionExit))

/-- The function `ControlFlowAnalyzer::checkUnassignedStorageReturnValues`:
the diagnostics it emits, or `none` when the worklist loop has not emptied the
stack within `fuel` iterations. -/
def checkUnassignedStorageReturnValues (ast : AST) (g : NodeContainer) (fuel : Nat)
    (functionEntry functionExit : Nat) : Option (List OccurrencePtr) :=
  (worklist ast g fuel (initialState functionEntry)).map (report ast g functionExit)

/-! ## The analyzer's entry point and its collaborators -/


/-- An arc of the graph: control flow can move from `a` to `b`. -/
def NodeContainer.edge (g : NodeContainer) (a b : Nat) : Prop :=
  b ∈ g.exits a

/-- Whether an arc exists is decided by searching the exits list. -/
instance (g : NodeContainer) (a b : Nat) : Decidable (g.edge a b) :=
  inferInstanceAs (Decidable (b ∈ g.exits a))

/-- Node `b` is reachable from node `a` along `exits` edges (in zero or more steps). -/
def NodeContainer.reaches (g : NodeContainer) (a b : Nat) : Prop :=
  Relation.ReflTransGen g.edge a b

/-- Node `n` is traversed: some iteration of the worklist loop pops it. -/
def traversed (ast : AST) (g : NodeContainer) (functionEntry n : Nat) : Prop :=
  ∃ k, (iterations ast g functionEntry k).nodesToTraverse.head? = some n

/-- The block `l` holds no `Assignment` and no `InlineAssembly` occurrence of `x`. -/
def noKill (l : List VariableOccurrence) (x : Nat) : Prop :=
  ∀ vo ∈ l, vo.declaration = x → vo.kind ≠ Kind.Assignment ∧ vo.kind ≠ Kind.InlineAssembly

/-- Reading `l` in order, a `Declaration(x)` occurs and no `Assignment(x)` or
`InlineAssembly(x)` follows it. -/
def live (l : List VariableOccurrence) (x : Nat) : Prop :=
  ∃ (pre mid : List VariableOccurrence) (decl : VariableOccurrence),
    l = pre ++ decl :: mid ∧ decl.kind = Kind.Declaration ∧ decl.declaration = x ∧ noKill mid x

/-- The nodes `path`, in order and followed by `n`, form a path of `exits`
edges that starts at the entry node. -/
def pathTo (g : NodeContainer) (functionEntry : Nat) (path : List Nat) (n : Nat) : Prop :=
  List.Chain' g.edge (path ++ [n]) ∧ (path ++ [n]).head? = some functionEntry

/-- Along some path from the entry node to `n`, `x` is declared and not killed
afterwards, either up to the start of `n`'s block or up to its end. -/
def carried (g : NodeContainer) (functionEntry n x : Nat) : Prop :=
  ∃ path, pathTo g functionEntry path n ∧
    (live (path.flatMap g.occurrences) x ∨
      live (path.flatMap g.occurrences ++ g.occurrences n) x)

/-- The spec's reading of "unsafe on some execution path reaching the normal
function exit": `o` is an `Access` of a storage-located variable, and some
path of `exits` edges from the entry node to the exit node runs through `o`'s
node such that, reading the blocks along the path in occurrence order, a
`Declaration` of the variable comes before `o` with no `Assignment` or
`InlineAssembly` of the variable in between. -/
def unsafeOnSomePath (ast : AST) (g : NodeContainer) (functionEntry functionExit : Nat)
    (o : OccurrencePtr) : Prop :=
  ∃ (before after : List Nat) (acc : VariableOccurrence),
    List.Chain' g.edge (before ++ o.node :: after) ∧
    (before ++ o.node :: after).head? = some functionEntry ∧
    (before ++ o.node :: after).getLast? = some functionExit ∧
    (g.occurrences o.node)[o.index]? = some acc ∧ acc.kind = Kind.Access ∧
    ast.dataStoredInStorage acc.declaration = true ∧
    ∃ (pre mid : List VariableOccurrence) (decl : VariableOccurrence),
      before.flatMap g.occurrences ++ (g.occurrences o.node).take o.index
        = pre ++ decl :: mid ∧
      decl.kind = Kind.Declaration ∧ decl.declaration = acc.declaration ∧
      ∀ vo ∈ mid, vo.declaration = acc.declaration →
        vo.kind ≠ Kind.Assignment ∧ vo.kind ≠ Kind.InlineAssembly

/-- Reads that every finished pass has in the exit set: `o` is an `Access` of a
storage-located variable `x` in a node from which the exit is reachable, and
either `o`'s node is traversed and its block holds a `Declaration(x)` before
`o` with no `Assignment(x)` or `InlineAssembly(x)` in between, or a path of
`exits` edges leads from a traversed node `d` whose block holds a
`Declaration(x)` to `o`'s node, no `Assignment(x)` or `InlineAssembly(x)` lies
between that declaration and `o` along the path, and `o`'s own block holds no
`Declaration(x)`. -/
def unsafeOnTraversedPath (ast : AST) (g : NodeContainer) (functionEntry functionExit : Nat)
    (o : OccurrencePtr) : Prop :=
  ∃ acc : VariableOccurrence,
    (g.occurrences o.node)[o.index]? = some acc ∧ acc.kind = Kind.Access ∧
    ast.dataStoredInStorage acc.declaration = true ∧ g.reaches o.node functionExit ∧
    ((traversed ast g functionEntry o.node ∧
        ∃ (pre mid : List VariableOccurrence) (decl : VariableOccurrence),
          (g.occurrences o.node).take o.index = pre ++ decl :: mid ∧
          decl.kind = Kind.Declaration ∧ decl.declaration = acc.declaration ∧
          noKill mid acc.declaration) ∨
      (∃ (d : Nat) (between : List Nat) (pre rest : List VariableOccurrence)
          (decl : VariableOccurrence),
        traversed ast g functionEntry d ∧
        List.Chain' g.edge (d :: (between ++ [o.node])) ∧
        g.occurrences d = pre ++ decl :: rest ∧
        decl.kind = Kind.Declaration ∧ decl.declaration = acc.declaration ∧
        noKill (rest ++ between.flatMap g.occurrences ++ (g.occurrences o.node).take o.index)
          acc.declaration ∧
        ∀ vo ∈ g.occurrences o.node,
          ¬ (vo.kind = Kind.Declaration ∧ vo.declaration = acc.declaration)))

/-- The key the comparison lambda orders by, lexicographically: the id of the
occurrence's AST node, then the id of the declaration, then the kind. -/
def sortKey (ast : AST) (g : NodeContainer) (o : OccurrencePtr) : Nat ×ₗ (Nat ×ₗ Nat) :=
  toLex (ast.occurrenceId (g.deref o).occurrence,
    toLex (ast.declarationId (g.deref o).declaration, (g.deref o).kind.toNat))

/-- The notion the spec decides the local transfer by (not a function of the
source): the kind of the last occurrence of `v` in the block `l` among the
occurrences of kind `Declaration`, `Assignment` or `InlineAssembly`, when the
block holds one. -/
def lastWrite (l : List VariableOccurrence) (v : Nat) : Option Kind :=
  ((l.filter fun vo => decide (vo.declaration = v) && decide (vo.kind ≠ Kind.Access)).getLast?).map
    fun vo => vo.kind

/-- The graph holds a `Declaration(x)` in the block of `n` or of a node from
which `n` is reachable along `exits` edges. -/
def declaredUpstream (g : NodeContainer) (n x : Nat) : Prop :=
  ∃ d, g.reaches d n ∧ ∃ vo ∈ g.occurrences d, vo.kind = Kind.Declaration ∧ vo.declaration = x

/-- An AST for the examples: every node and declaration has its pointer as
id, and the declarations below 100 are the storage-located ones. -/
def exampleAst : AST :=
  ⟨fun d => d, fun d => decide (d < 100), fun a => a⟩

/-- An empty entry node, a block that declares and then reads `x`, and the exit. -/
def skippedBlockNodes : NodeContainer :=
  [⟨[], [1], ⟨[], none⟩⟩,
   ⟨[0], [2], ⟨[⟨1, .Declaration, 10⟩, ⟨1, .Access, 11⟩], none⟩⟩,
   ⟨[1], [], ⟨[], none⟩⟩]

/-- An entry block that declares `x` (1) and assigns it, a block that declares
and then reads `y` (2), and the exit. -/
def assignedEntryNodes : NodeContainer :=
  [⟨[], [1], ⟨[⟨1, .Declaration, 10⟩, ⟨1, .Assignment, 11⟩], none⟩⟩,
   ⟨[0], [2], ⟨[⟨2, .Declaration, 12⟩, ⟨2, .Access, 13⟩], none⟩⟩,
   ⟨[1], [], ⟨[], none⟩⟩]

/-- Two blocks reaching a block that reads `x` before declaring it; the entry's
exits are a parameter. -/
def lateDeclarationNodes (entryExits : List Nat) : NodeContainer :=
  [⟨[], entryExits, ⟨[⟨1, .Declaration, 10⟩], none⟩⟩,
   ⟨[0], [3], ⟨[⟨2, .Declaration, 11⟩], none⟩⟩,
   ⟨[0], [3], ⟨[], none⟩⟩,
   ⟨[1, 2], [4], ⟨[⟨5, .Access, 12⟩, ⟨5, .Declaration, 13⟩], none⟩⟩,
   ⟨[3], [], ⟨[], none⟩⟩]

/-- An entry block that declares `x` (1) and `y` (2) and exits to both blocks
of a loop: node 1 assigns `y` and exits to node 2, node 2 assigns `x` and exits
back to node 1 and to the exit node 3. -/
def loopNodes : NodeContainer :=
  [⟨[], [1, 2], ⟨[⟨1, .Declaration, 10⟩, ⟨2, .Declaration, 11⟩], none⟩⟩,
   ⟨[0, 2], [2], ⟨[⟨2, .Assignment, 12⟩], none⟩⟩,
   ⟨[0, 1], [1, 3], ⟨[⟨1, .Assignment, 13⟩], none⟩⟩,
   ⟨[2], [], ⟨[], none⟩⟩]

/-- The state of the loop graph when node 1 is about to be visited again. -/
def loopHead (s : State) : Prop :=
  s.nodesToTraverse = [1] ∧ s.unassigned 1 = {1, 2} ∧ s.unassigned 2 = {2} ∧
    s.unassigned 3 = {2} ∧ s.unassignedAccess 1 = ∅ ∧ s.unassignedAccess 2 = ∅ ∧
    s.unassignedAccess 3 = ∅

/-- The state of the loop graph when node 2 is about to be visited again. -/
def loopTail (s : State) : Prop :=
  s.nodesToTraverse = [2] ∧ s.unassigned 1 = {1} ∧ s.unassigned 2 = {1, 2} ∧
    s.unassigned 3 = {2} ∧ s.unassignedAccess 1 = ∅ ∧ s.unassignedAccess 2 = ∅ ∧
    s.unassignedAccess 3 = ∅

/-- An empty entry node that exits to the revert node 3 and to node 1, whose
block declares and then reads `x` and which exits to the exit node 2. -/
def branchBlockNodes : NodeContainer :=
  [⟨[], [3, 1], ⟨[], none⟩⟩,
   ⟨[0], [2], ⟨[⟨1, .Declaration, 12⟩, ⟨1, .Access, 13⟩], none⟩⟩,
   ⟨[1], [], ⟨[], none⟩⟩,
   ⟨[0], [], ⟨[], none⟩⟩]

/-- An entry block that declares `y`, a block that declares and then reads
`x`, and the exit. -/
def traversedBlockNodes : NodeContainer :=
  [⟨[], [1], ⟨[⟨2, .Declaration, 10⟩], none⟩⟩,
   ⟨[0], [2], ⟨[⟨1, .Declaration, 11⟩, ⟨1, .Access, 12⟩], none⟩⟩,
   ⟨[1], [], ⟨[], none⟩⟩]

/-- The diamond of the join scenario: entry 0 declares `x` and exits to `A`
(node 1, assigns `x`) and `B` (node 2, block `blockB`); both exit to `M`
(node 3, reads `x`), which exits to the function's exit (node 4). -/
def diamondNodes (x : Nat) (entryExits : List Nat) (blockB : List VariableOccurrence)
    (declAt assignAt accessAt : Nat) : NodeContainer :=
  [⟨[], entryExits, ⟨[⟨x, .Declaration, declAt⟩], none⟩⟩,
   ⟨[0], [3], ⟨[⟨x, .Assignment, assignAt⟩], none⟩⟩,
   ⟨[0], [3], ⟨blockB, none⟩⟩,
   ⟨[1, 2], [4], ⟨[⟨x, .Access, accessAt⟩], none⟩⟩,
   ⟨[3], [], ⟨[], none⟩⟩]

/-- The stack and the entries of the two maps for the nodes 1 to 4. -/
def diamondSnapshot (s : State) (stack : List Nat) (u1 u2 u3 u4 : Finset Nat)
    (a1 a2 a3 a4 : Finset OccurrencePtr) : Prop :=
  s.nodesToTraverse = stack ∧ s.unassigned 1 = u1 ∧ s.unassigned 2 = u2 ∧
    s.unassigned 3 = u3 ∧ s.unassigned 4 = u4 ∧ s.unassignedAccess 1 = a1 ∧
    s.unassignedAccess 2 = a2 ∧ s.unassignedAccess 3 = a3 ∧ s.unassignedAccess 4 = a4

/-- One block that declares, assigns and reads `x` (1) and then declares `y`
(2), references it in inline assembly and reads it. -/
def killBlockNodes : NodeContainer :=
  [⟨[], [1], ⟨[⟨1, .Declaration, 10⟩, ⟨1, .Assignment, 11⟩, ⟨1, .Access, 12⟩,
      ⟨2, .Declaration, 13⟩, ⟨2, .InlineAssembly, 14⟩, ⟨2, .Access, 15⟩], none⟩⟩,
   ⟨[0], [], ⟨[], none⟩⟩]

/-- One block that declares and reads a variable that is not storage-located
(100) and then declares and reads a storage-located one (1). -/
def mixedLocationNodes : NodeContainer :=
  [⟨[], [1], ⟨[⟨100, .Declaration, 10⟩, ⟨100, .Access, 11⟩,
      ⟨1, .Declaration, 12⟩, ⟨1, .Access, 13⟩], none⟩⟩,
   ⟨[0], [], ⟨[], none⟩⟩]

/-- An entry block that declares `x` and exits to two blocks that read it:
node 1 continues to the revert node 3, node 2 to the exit node 4. -/
def revertingNodes : NodeContainer :=
  [⟨[], [1, 2], ⟨[⟨1, .Declaration, 10⟩], none⟩⟩,
   ⟨[0], [3], ⟨[⟨1, .Access, 11⟩], none⟩⟩,
   ⟨[0], [4], ⟨[⟨1, .Access, 12⟩], none⟩⟩,
   ⟨[1], [], ⟨[], none⟩⟩,
   ⟨[2], [], ⟨[], none⟩⟩]

/-- One block that reads `x` unassigned at the AST node with id 5 and then at
the AST node with id 3. -/
def twoAccessNodes : NodeContainer :=
  [⟨[], [1], ⟨[⟨1, .Declaration, 1⟩, ⟨1, .Access, 5⟩, ⟨1, .Access, 3⟩], none⟩⟩,
   ⟨[0], [], ⟨[], none⟩⟩]

/-- A block whose last occurrence of `x` (1) other than a read is a
declaration, whose last such occurrence of `y` (2) is an assignment and that
only reads `z` (3). -/
def lastWriteBlock : List VariableOccurrence :=
  [⟨1, .Assignment, 10⟩, ⟨1, .Declaration, 11⟩, ⟨1, .Access, 12⟩,
   ⟨2, .Declaration, 13⟩, ⟨2, .Assignment, 14⟩, ⟨3, .Access, 15⟩]

/-- An entry block that declares `x` (1), a block that assigns it, and the exit. -/
def assignedLaterNodes : NodeContainer :=
  [⟨[], [1], ⟨[⟨1, .Declaration, 10⟩], none⟩⟩,
   ⟨[0], [2], ⟨[⟨1, .Assignment, 11⟩], none⟩⟩,
   ⟨[1], [], ⟨[], none⟩⟩]

/-- An entry block that declares `x` (1), reads it and then assigns it, a
block that assigns it again, and the exit. -/
def assignedAfterReadNodes : NodeContainer :=
  [⟨[], [1], ⟨[⟨1, .Declaration, 10⟩, ⟨1, .Access, 11⟩, ⟨1, .Assignment, 12⟩], none⟩⟩,
   ⟨[0], [2], ⟨[⟨1, .Assignment, 13⟩], none⟩⟩,
   ⟨[1], [], ⟨[], none⟩⟩]

/-- An entry block that declares `x` (1), a block that reads a variable
declared nowhere (5) and then `x`, and the exit. -/
def undeclaredReadNodes : NodeContainer :=
  [⟨[], [1], ⟨[⟨1, .Declaration, 10⟩], none⟩⟩,
   ⟨[0], [2], ⟨[⟨5, .Access, 11⟩, ⟨1, .Access, 12⟩], none⟩⟩,
   ⟨[1], [], ⟨[], none⟩⟩]

theorem perm_accessVector (l : List OccurrencePtr) (hl : l.Nodup) :
    (accessVector ⟨(l : Multiset OccurrencePtr), hl⟩).Perm l :=
  List.perm_insertionSort _ l

theorem mem_accessVector (s : Finset OccurrencePtr) (o : OccurrencePtr) :
    o ∈ accessVector s ↔ o ∈ s := by
  rcases s with ⟨⟨l⟩, hl⟩
  exact (perm_accessVector l hl).mem_iff

theorem nodup_accessVector (s : Finset OccurrencePtr) : (accessVector s).Nodup := by
  rcases s with ⟨⟨l⟩, hl⟩
  exact (perm_accessVector l hl).nodup_iff.mpr hl

theorem perm_sortAccesses (ast : AST) (g : NodeContainer) (l : List OccurrencePtr) :
    (sortAccesses ast g l).Perm l :=
  List.perm_insertionSort _ l

theorem mem_report (ast : AST) (g : NodeContainer) (functionExit : Nat) (s : State)
    (o : OccurrencePtr) :
    o ∈ report ast g functionExit s ↔ o ∈ s.unassignedAccess functionExit := by
  unfold report
  split
  · next h => simp [h]
  · exact ((perm_sortAccesses ast g _).mem_iff).trans (mem_accessVector _ o)

theorem nodup_report (ast : AST) (g : NodeContainer) (functionExit : Nat) (s : State) :
    (report ast g functionExit s).Nodup := by
  unfold report
  split
  · exact List.nodup_nil
  · exact (perm_sortAccesses ast g _).nodup_iff.mpr (nodup_accessVector _)

theorem occurrenceLess_iff (ast : AST) (g : NodeContainer) (a b : OccurrencePtr) :
    occurrenceLess ast g a b = true ↔ sortKey ast g a < sortKey ast g b := by
  unfold occurrenceLess sortKey
  simp only [Prod.Lex.lt_iff, ofLex_toLex]
  split_ifs <;> simp <;> omega

theorem occurrenceLess_eq_false_iff (ast : AST) (g : NodeContainer) (a b : OccurrencePtr) :
    occurrenceLess ast g b a = false ↔ sortKey ast g a ≤ sortKey ast g b := by
  rw [← not_lt, ← occurrenceLess_iff, Bool.not_eq_true]

theorem sorted_sortAccesses (ast : AST) (g : NodeContainer) (l : List OccurrencePtr) :
    (sortAccesses ast g l).Pairwise (fun a b => sortKey ast g a ≤ sortKey ast g b) := by
  haveI : IsTotal OccurrencePtr (fun lhs rhs => occurrenceLess ast g rhs lhs = false) :=
    ⟨fun a b => by
      simp only [occurrenceLess_eq_false_iff]
      exact le_total _ _⟩
  haveI : IsTrans OccurrencePtr (fun lhs rhs => occurrenceLess ast g rhs lhs = false) :=
    ⟨fun a b c => by
      simp only [occurrenceLess_eq_false_iff]
      exact le_trans⟩
  have h := List.sorted_insertionSort (fun lhs rhs => occurrenceLess ast g rhs lhs = false) l
  exact List.Pairwise.imp (fun {a b} hab => (occurrenceLess_eq_false_iff ast g a b).mp hab) h

theorem sorted_report (ast : AST) (g : NodeContainer) (functionExit : Nat) (s : State) :
    (report ast g functionExit s).Pairwise (fun a b => sortKey ast g a ≤ sortKey ast g b) := by
  unfold report
  split
  · exact List.Pairwise.nil
  · exact sorted_sortAccesses ast g _

theorem iterations_eq_iterate (ast : AST) (g : NodeContainer) (e k : Nat) :
    iterations ast g e k = (step ast g)^[k] (initialState e) := by
  induction k with
  | zero => rfl
  | succ k ih => rw [Function.iterate_succ_apply', ← ih]; rfl

theorem step_of_empty (ast : AST) (g : NodeContainer) (s : State)
    (h : s.nodesToTraverse = []) : step ast g s = s := by
  unfold step
  rw [h]

theorem iterate_step_of_empty (ast : AST) (g : NodeContainer) (s : State)
    (h : s.nodesToTraverse = []) (k : Nat) : (step ast g)^[k] s = s := by
  induction k with
  | zero => rfl
  | succ k ih => rw [Function.iterate_succ_apply, step_of_empty ast g s h, ih]

theorem worklist_some (ast : AST) (g : NodeContainer) :
    ∀ (fuel : Nat) (s t : State), worklist ast g fuel s = some t →
      ∃ k, k ≤ fuel ∧ t = (step ast g)^[k] s ∧ t.nodesToTraverse = [] := by
  intro fuel
  induction fuel with
  | zero =>
    intro s t h
    unfold worklist at h
    split at h
    · next he =>
      cases h
      exact ⟨0, le_refl _, rfl, List.isEmpty_iff.mp he⟩
    · cases h
  | succ fuel ih =>
    intro s t h
    unfold worklist at h
    split at h
    · next he =>
      cases h
      exact ⟨0, Nat.zero_le _, rfl, List.isEmpty_iff.mp he⟩
    · obtain ⟨k, hk, ht, he⟩ := ih _ _ h
      exact ⟨k + 1, Nat.succ_le_succ hk, by rw [Function.iterate_succ_apply]; exact ht, he⟩

theorem worklist_initial_some (ast : AST) (g : NodeContainer) (fuel e : Nat) (t : State)
    (h : worklist ast g fuel (initialState e) = some t) :
    ∃ k, k ≤ fuel ∧ t = iterations ast g e k ∧ t.nodesToTraverse = [] := by
  obtain ⟨k, hk, ht, he⟩ := worklist_some ast g fuel _ _ h
  exact ⟨k, hk, by rw [iterations_eq_iterate]; exact ht, he⟩

theorem worklist_of_empty_at (ast : AST) (g : NodeContainer) :
    ∀ (fuel k : Nat) (s : State), ((step ast g)^[k] s).nodesToTraverse = [] → k ≤ fuel →
      worklist ast g fuel s = some ((step ast g)^[k] s) := by
  intro fuel
  induction fuel with
  | zero =>
    intro k s h hk
    obtain rfl : k = 0 := by omega
    simp only [Function.iterate_zero, id_eq] at h ⊢
    simp [worklist, h]
  | succ fuel ih =>
    intro k s h hk
    by_cases he : s.nodesToTraverse = []
    · rw [iterate_step_of_empty ast g s he]
      simp [worklist, he]
    · cases k with
      | zero => exact absurd h he
      | succ k =>
        rw [Function.iterate_succ_apply] at h ⊢
        have hne : s.nodesToTraverse.isEmpty = false := by
          cases hs : s.nodesToTraverse with
          | nil => exact absurd hs he
          | cons _ _ => rfl
        unfold worklist
        rw [hne]
        exact ih k _ h (by omega)

theorem worklist_none (ast : AST) (g : NodeContainer) :
    ∀ (fuel : Nat) (s : State),
      (∀ k, k ≤ fuel → ((step ast g)^[k] s).nodesToTraverse ≠ []) →
      worklist ast g fuel s = none := by
  intro fuel
  induction fuel with
  | zero =>
    intro s h
    have h0 := h 0 (le_refl _)
    simp only [Function.iterate_zero, id_eq] at h0
    simp [worklist, h0]
  | succ fuel ih =>
    intro s h
    have h0 := h 0 (Nat.zero_le _)
    simp only [Function.iterate_zero, id_eq] at h0
    have hne : s.nodesToTraverse.isEmpty = false := by
      cases hs : s.nodesToTraverse with
      | nil => exact absurd hs h0
      | cons _ _ => rfl
    unfold worklist
    rw [hne]
    exact ih _ (fun k hk => by
      have := h (k + 1) (by omega)
      rwa [Function.iterate_succ_apply] at this)

theorem check_of_empty_at (ast : AST) (g : NodeContainer) (fuel k e x : Nat)
    (h : ((step ast g)^[k] (initialState e)).nodesToTraverse = []) (hk : k ≤ fuel) :
    checkUnassignedStorageReturnValues ast g fuel e x
      = some (report ast g x ((step ast g)^[k] (initialState e))) := by
  unfold checkUnassignedStorageReturnValues
  rw [worklist_of_empty_at ast g fuel k _ h hk]
  rfl

/-- Every diagnostic of a finished pass is a member of the exit's set in some
iteration's state. -/
theorem mem_check (ast : AST) (g : NodeContainer) (fuel e x : Nat) (ds : List OccurrencePtr)
    (h : checkUnassignedStorageReturnValues ast g fuel e x = some ds) :
    ∃ k, (iterations ast g e k).nodesToTraverse = [] ∧ ds = report ast g x (iterations ast g e k) := by
  unfold checkUnassignedStorageReturnValues at h
  rcases hw : worklist ast g fuel (initialState e) with _ | t
  · simp [hw] at h
  · simp only [hw, Option.map_some', Option.some.injEq] at h
    obtain ⟨k, _, ht, hk⟩ := worklist_initial_some ast g fuel e t hw
    exact ⟨k, ht ▸ hk, by rw [← ht]; exact h.symm⟩

theorem iterations_add_of_empty (ast : AST) (g : NodeContainer) (e k : Nat)
    (hk : (iterations ast g e k).nodesToTraverse = []) (d : Nat) :
    iterations ast g e (k + d) = iterations ast g e k := by
  induction d with
  | zero => rfl
  | succ d ih =>
    show step ast g (iterations ast g e (k + d)) = _
    rw [ih, step_of_empty ast g _ hk]

theorem lt_of_head_of_empty (ast : AST) (g : NodeContainer) (e k K n : Nat)
    (hk : (iterations ast g e k).nodesToTraverse.head? = some n)
    (hK : (iterations ast g e K).nodesToTraverse = []) : k < K := by
  by_contra hlt
  obtain ⟨d, rfl⟩ : ∃ d, k = K + d := ⟨k - K, by omega⟩
  rw [iterations_add_of_empty ast g e K hK d, hK] at hk
  simp at hk

theorem occurrencePtr_inj {n i m j : Nat} (h : occurrencePtr n i = occurrencePtr m j) :
    n = m ∧ i = j := by
  have := congrArg ofLex h
  simpa [occurrencePtr] using this

theorem occurrencePtr_eta (o : OccurrencePtr) : occurrencePtr o.node o.index = o := rfl

theorem deref_occurrencePtr (g : NodeContainer) (n i : Nat) (vo : VariableOccurrence)
    (h : (g.occurrences n)[i]? = some vo) : g.deref (occurrencePtr n i) = vo := by
  simp [NodeContainer.deref, occurrencePtr, OccurrencePtr.node, OccurrencePtr.index,
    List.getD_eq_getElem?_getD, h]

theorem deref_of_lt (g : NodeContainer) (o : OccurrencePtr)
    (h : o.index < (g.occurrences o.node).length) :
    (g.occurrences o.node)[o.index]? = some (g.deref o) := by
  rw [List.getElem?_eq_getElem h]
  simp [NodeContainer.deref, List.getD_eq_getElem?_getD, List.getElem?_eq_getElem h]

theorem eq_singleton_of_nodup {α : Type} (l : List α) (p : α) (hl : l.Nodup)
    (hmem : ∀ o, o ∈ l ↔ o = p) : l = [p] := by
  match l, hl, hmem with
  | [], _, hmem => exact absurd ((hmem p).mpr rfl) (List.not_mem_nil p)
  | [a], _, hmem => rw [(hmem a).mp (List.mem_singleton_self a)]
  | a :: b :: rest, hl, hmem =>
    have ha := (hmem a).mp (List.mem_cons_self _ _)
    have hb := (hmem b).mp (List.mem_cons_of_mem _ (List.mem_cons_self _ _))
    rw [List.nodup_cons] at hl
    exact absurd (ha.trans hb.symm ▸ List.mem_cons_self _ _) hl.1

theorem getElem?_append_cons_cases {α : Type} (A C : List α) (b v : α) (i : Nat)
    (h : (A ++ b :: C)[i]? = some v) :
    v ∈ A ∨ (i = A.length ∧ v = b) ∨ (∃ j, i = A.length + 1 + j ∧ C[j]? = some v) := by
  rcases Nat.lt_trichotomy i A.length with hlt | heq | hgt
  · rw [List.getElem?_append_left hlt] at h
    exact Or.inl (List.getElem?_mem h)
  · subst heq
    rw [List.getElem?_append_right (le_refl _), Nat.sub_self] at h
    simp only [List.getElem?_cons_zero, Option.some.injEq] at h
    exact Or.inr (Or.inl ⟨rfl, h.symm⟩)
  · rw [List.getElem?_append_right (by omega)] at h
    obtain ⟨j, hj⟩ : ∃ j, i - A.length = j + 1 := ⟨i - A.length - 1, by omega⟩
    rw [hj, List.getElem?_cons_succ] at h
    exact Or.inr (Or.inr ⟨j, by omega, h⟩)

theorem getElem?_block_access {α : Type} (pre mid post : List α) (a b : α) :
    (pre ++ a :: (mid ++ b :: post))[pre.length + 1 + mid.length]? = some b := by
  have : pre ++ a :: (mid ++ b :: post) = (pre ++ a :: mid) ++ b :: post := by simp
  rw [this, List.getElem?_append_right (by simp; omega)]
  have h0 : pre.length + 1 + mid.length - (pre ++ a :: mid).length = 0 := by simp; omega
  rw [h0]
  simp

/-! ## The transfer of one block -/

theorem transferFrom_append (ast : AST) (node : Nat) :
    ∀ (a b : List VariableOccurrence) (i : Nat) (acc : Finset Nat × Finset OccurrencePtr),
      transferFrom ast node i (a ++ b) acc
        = transferFrom ast node (i + a.length) b (transferFrom ast node i a acc) := by
  intro a
  induction a with
  | nil => intro b i acc; rfl
  | cons vo rest ih =>
    intro b i acc
    show transferFrom ast node (i + 1) (rest ++ b) (transferOccurrence ast node i vo acc) = _
    rw [ih]
    simp only [List.length_cons, transferFrom]
    congr 1
    omega

theorem not_mem_transferOccurrence_fst (ast : AST) (node i x : Nat) (vo : VariableOccurrence)
    (acc : Finset Nat × Finset OccurrencePtr) (hx : x ∉ acc.1)
    (hvo : ¬ (vo.kind = Kind.Declaration ∧ vo.declaration = x)) :
    x ∉ (transferOccurrence ast node i vo acc).1 := by
  unfold transferOccurrence
  rcases vo with ⟨d, k, o⟩
  cases k <;> simp only [] <;> try split_ifs
  all_goals simp_all [Finset.mem_erase, Finset.mem_insert]
  all_goals tauto

theorem not_mem_transferFrom_fst (ast : AST) (node x : Nat) :
    ∀ (l : List VariableOccurrence) (i : Nat) (acc : Finset Nat × Finset OccurrencePtr),
      x ∉ acc.1 → (∀ vo ∈ l, ¬ (vo.kind = Kind.Declaration ∧ vo.declaration = x)) →
      x ∉ (transferFrom ast node i l acc).1 := by
  intro l
  induction l with
  | nil => intro i acc hx _; exact hx
  | cons vo rest ih =>
    intro i acc hx hl
    simp only [transferFrom]
    exact ih _ _ (not_mem_transferOccurrence_fst ast node i x vo acc hx
      (hl vo (List.mem_cons_self _ _))) (fun w hw => hl w (List.mem_cons_of_mem _ hw))

theorem mem_transferOccurrence_fst (ast : AST) (node i x : Nat) (vo : VariableOccurrence)
    (acc : Finset Nat × Finset OccurrencePtr) (hx : x ∈ acc.1) (hvo : vo.declaration ≠ x) :
    x ∈ (transferOccurrence ast node i vo acc).1 := by
  unfold transferOccurrence
  rcases vo with ⟨d, k, o⟩
  cases k <;> simp only [] <;> try split_ifs
  all_goals simp_all [Finset.mem_erase, Finset.mem_insert]
  all_goals tauto

theorem mem_transferFrom_fst (ast : AST) (node x : Nat) :
    ∀ (l : List VariableOccurrence) (i : Nat) (acc : Finset Nat × Finset OccurrencePtr),
      x ∈ acc.1 → (∀ vo ∈ l, vo.declaration ≠ x) → x ∈ (transferFrom ast node i l acc).1 := by
  intro l
  induction l with
  | nil => intro i acc hx _; exact hx
  | cons vo rest ih =>
    intro i acc hx hl
    simp only [transferFrom]
    exact ih _ _ (mem_transferOccurrence_fst ast node i x vo acc hx
      (hl vo (List.mem_cons_self _ _))) (fun w hw => hl w (List.mem_cons_of_mem _ hw))

theorem noKill_append {l₁ l₂ : List VariableOccurrence} {x : Nat} :
    noKill (l₁ ++ l₂) x ↔ noKill l₁ x ∧ noKill l₂ x := by
  unfold noKill
  constructor
  · intro h
    exact ⟨fun vo hvo => h vo (List.mem_append_left _ hvo),
      fun vo hvo => h vo (List.mem_append_right _ hvo)⟩
  · rintro ⟨h1, h2⟩ vo hvo
    rcases List.mem_append.mp hvo with h | h
    · exact h1 vo h
    · exact h2 vo h

theorem noKill_take {l : List VariableOccurrence} {x : Nat} (h : noKill l x) (j : Nat) :
    noKill (l.take j) x :=
  fun vo hvo => h vo (List.mem_of_mem_take hvo)

theorem live_append_right {l l1 : List VariableOccurrence} {x : Nat} (h : live l x)
    (h1 : noKill l1 x) : live (l ++ l1) x := by
  obtain ⟨pre, mid, decl, hl, hk, hd, hm⟩ := h
  exact ⟨pre, mid ++ l1, decl, by rw [hl]; simp, hk, hd, noKill_append.mpr ⟨hm, h1⟩⟩

theorem live_append_left {l1 : List VariableOccurrence} {x : Nat}
    (l : List VariableOccurrence) (h : live l1 x) : live (l ++ l1) x := by
  obtain ⟨pre, mid, decl, hl, hk, hd, hm⟩ := h
  exact ⟨l ++ pre, mid, decl, by rw [hl]; simp, hk, hd, hm⟩

theorem live_append_cases {A B : List VariableOccurrence} {x : Nat} (h : live (A ++ B) x) :
    live B x ∨ (live A x ∧ noKill B x) := by
  obtain ⟨pre, mid, decl, hl, hk, hd, hm⟩ := h
  rcases List.append_eq_append_iff.mp hl with ⟨a', h1, h2⟩ | ⟨c', h1, h2⟩
  · exact Or.inl ⟨a', mid, decl, h2, hk, hd, hm⟩
  · rcases c' with _ | ⟨c, c'⟩
    · simp only [List.nil_append] at h2
      exact Or.inl ⟨[], mid, decl, by simpa using h2.symm, hk, hd, hm⟩
    · simp only [List.cons_append, List.cons.injEq] at h2
      obtain ⟨hc, hmid⟩ := h2
      subst hc
      rw [hmid] at hm
      exact Or.inr ⟨⟨pre, c', decl, h1, hk, hd, (noKill_append.mp hm).1⟩,
        (noKill_append.mp hm).2⟩

/-- A declaration that is live at the end of a block is live at position `j`
already, or it stands at position `j` or later. -/
theorem live_take_cases {B : List VariableOccurrence} {x : Nat} (h : live B x) (j : Nat) :
    live (B.take j) x ∨
      ∃ decl ∈ B.drop j, decl.kind = Kind.Declaration ∧ decl.declaration = x := by
  obtain ⟨pre, mid, decl, hB, hk, hd, hm⟩ := h
  by_cases hj : pre.length < j
  · left
    refine ⟨pre, mid.take (j - pre.length - 1), decl, ?_, hk, hd, noKill_take hm _⟩
    rw [hB, List.take_append_eq_append_take, List.take_of_length_le (by omega)]
    obtain ⟨c, hc⟩ : ∃ c, j - pre.length = c + 1 := ⟨j - pre.length - 1, by omega⟩
    rw [hc, List.take_succ_cons]
    simp
  · right
    refine ⟨decl, ?_, hk, hd⟩
    rw [hB, List.drop_append_eq_append_drop]
    have : j - pre.length = 0 := by omega
    rw [this]
    simp

theorem transferFrom_fst_of_noKill (ast : AST) (node x : Nat) :
    ∀ (l : List VariableOccurrence) (i : Nat) (acc : Finset Nat × Finset OccurrencePtr),
      x ∈ acc.1 → noKill l x → x ∈ (transferFrom ast node i l acc).1 := by
  intro l
  induction l with
  | nil => intro i acc hx _; exact hx
  | cons vo rest ih =>
    intro i acc hx hl
    simp only [transferFrom]
    refine ih _ _ ?_ (fun w hw => hl w (List.mem_cons_of_mem _ hw))
    have hvo := hl vo (List.mem_cons_self _ _)
    unfold transferOccurrence
    rcases vo with ⟨d, k, o⟩
    cases k <;> simp only []
    all_goals try split_ifs
    all_goals simp_all [Finset.mem_erase, Finset.mem_insert]
    all_goals (intro hd; exact absurd hd.symm (by tauto))

/-- A variable that the transfer of a block leaves in the unassigned set is
declared in the block and not killed afterwards, or it came in and the block
does not kill it. -/
theorem transferFrom_fst_cases (ast : AST) (node x : Nat) :
    ∀ (l : List VariableOccurrence) (i : Nat) (acc : Finset Nat × Finset OccurrencePtr),
      x ∈ (transferFrom ast node i l acc).1 → live l x ∨ (x ∈ acc.1 ∧ noKill l x) := by
  intro l
  induction l with
  | nil =>
    intro i acc hx
    exact Or.inr ⟨hx, fun vo hvo => absurd hvo (List.not_mem_nil vo)⟩
  | cons vo rest ih =>
    intro i acc hx
    simp only [transferFrom] at hx
    rcases ih _ _ hx with h | ⟨h1, h2⟩
    · exact Or.inl (live_append_left [vo] h)
    · by_cases hdecl : vo.kind = Kind.Declaration ∧ vo.declaration = x
      · exact Or.inl ⟨[], rest, vo, rfl, hdecl.1, hdecl.2, h2⟩
      · right
        have key : x ∈ acc.1 ∧ (vo.declaration = x →
            vo.kind ≠ Kind.Assignment ∧ vo.kind ≠ Kind.InlineAssembly) := by
          unfold transferOccurrence at h1
          rcases vo with ⟨d, k, o⟩
          cases k <;> simp only [] at h1 hdecl ⊢
          all_goals try split_ifs at h1
          all_goals simp_all [Finset.mem_erase, Finset.mem_insert]
          all_goals tauto
        refine ⟨key.1, fun w hw => ?_⟩
        rcases List.mem_cons.mp hw with h | h
        · rw [h]; exact key.2
        · exact h2 w h

theorem transferFrom_fst_of_declaration (ast : AST) (node x i : Nat)
    (pre rest : List VariableOccurrence) (decl : VariableOccurrence)
    (acc : Finset Nat × Finset OccurrencePtr)
    (hdecl : decl.kind = Kind.Declaration ∧ decl.declaration = x) (hrest : noKill rest x) :
    x ∈ (transferFrom ast node i (pre ++ decl :: rest) acc).1 := by
  rw [transferFrom_append]
  simp only [transferFrom]
  apply transferFrom_fst_of_noKill ast node x rest _ _ _ hrest
  unfold transferOccurrence
  simp [hdecl.1, hdecl.2]

theorem mem_transferFrom_snd (ast : AST) (node : Nat) :
    ∀ (l : List VariableOccurrence) (i : Nat) (acc : Finset Nat × Finset OccurrencePtr)
      (o : OccurrencePtr), o ∈ (transferFrom ast node i l acc).2 →
      o ∈ acc.2 ∨ ∃ k vo, l[k]? = some vo ∧ o = occurrencePtr node (i + k) ∧
        vo.kind = Kind.Access ∧ ast.dataStoredInStorage vo.declaration = true ∧
        vo.declaration ∈ (transferFrom ast node i (l.take k) acc).1 := by
  intro l
  induction l with
  | nil => intro i acc o h; exact Or.inl h
  | cons vo rest ih =>
    intro i acc o h
    simp only [transferFrom] at h
    rcases ih _ _ o h with h1 | ⟨k, w, hk, ho, hkind, hst, hmem⟩
    · by_cases hflag : vo.kind = Kind.Access ∧ vo.declaration ∈ acc.1 ∧
          ast.dataStoredInStorage vo.declaration = true
      · obtain ⟨hkind, hin, hst⟩ := hflag
        have : (transferOccurrence ast node i vo acc).2 = insert (occurrencePtr node i) acc.2 := by
          unfold transferOccurrence
          simp [hkind, hin, hst]
        rw [this, Finset.mem_insert] at h1
        rcases h1 with h1 | h1
        · exact Or.inr ⟨0, vo, by simp, by simpa using h1, hkind, hst, by simpa [transferFrom] using hin⟩
        · exact Or.inl h1
      · have : (transferOccurrence ast node i vo acc).2 = acc.2 := by
          unfold transferOccurrence
          rcases vo with ⟨d, kd, oc⟩
          cases kd <;> simp only []
          all_goals try split_ifs
          all_goals first | rfl | (exfalso; apply hflag; simp_all)
        rw [this] at h1
        exact Or.inl h1
    · refine Or.inr ⟨k + 1, w, by simpa using hk, ?_, hkind, hst, ?_⟩
      · rw [ho]; congr 1; omega
      · simpa [transferFrom] using hmem

theorem transferOccurrence_snd_mono (ast : AST) (node i : Nat) (vo : VariableOccurrence)
    (acc : Finset Nat × Finset OccurrencePtr) :
    acc.2 ⊆ (transferOccurrence ast node i vo acc).2 := by
  unfold transferOccurrence
  rcases vo with ⟨d, k, o⟩
  cases k <;> simp only []
  all_goals try split_ifs
  all_goals first | exact Finset.Subset.refl _ | exact Finset.subset_insert _ _

theorem transferFrom_snd_mono (ast : AST) (node : Nat) :
    ∀ (l : List VariableOccurrence) (i : Nat) (acc : Finset Nat × Finset OccurrencePtr),
      acc.2 ⊆ (transferFrom ast node i l acc).2 := by
  intro l
  induction l with
  | nil => intro i acc; exact Finset.Subset.refl _
  | cons vo rest ih =>
    intro i acc
    simp only [transferFrom]
    exact (transferOccurrence_snd_mono ast node i vo acc).trans (ih _ _)

theorem transferFrom_snd_of_access (ast : AST) (node x i : Nat)
    (pre post : List VariableOccurrence) (accv : VariableOccurrence)
    (acc : Finset Nat × Finset OccurrencePtr)
    (haccv : accv.kind = Kind.Access ∧ accv.declaration = x)
    (hs : ast.dataStoredInStorage x = true)
    (hx : x ∈ (transferFrom ast node i pre acc).1) :
    occurrencePtr node (i + pre.length) ∈ (transferFrom ast node i (pre ++ accv :: post) acc).2 := by
  rw [transferFrom_append]
  simp only [transferFrom]
  apply transferFrom_snd_mono ast node post
  unfold transferOccurrence
  simp [haccv.1, haccv.2, hs, hx]

/-- An access that follows a declaration of its storage-located variable in
the same block, with no kill in between, is flagged by every traversal of the
block. -/
theorem transferFrom_snd_of_declaration (ast : AST) (node x : Nat)
    (pre mid post : List VariableOccurrence) (decl accv : VariableOccurrence)
    (acc : Finset Nat × Finset OccurrencePtr)
    (hdecl : decl.kind = Kind.Declaration ∧ decl.declaration = x)
    (haccv : accv.kind = Kind.Access ∧ accv.declaration = x)
    (hs : ast.dataStoredInStorage x = true) (hmid : noKill mid x) :
    occurrencePtr node (pre.length + 1 + mid.length)
      ∈ (transferFrom ast node 0 (pre ++ decl :: (mid ++ accv :: post)) acc).2 := by
  have h := transferFrom_snd_of_access ast node x 0 (pre ++ decl :: mid) post accv acc haccv hs
    (transferFrom_fst_of_declaration ast node x 0 pre mid decl acc hdecl hmid)
  have e1 : (pre ++ decl :: mid) ++ accv :: post = pre ++ decl :: (mid ++ accv :: post) := by
    simp
  have e2 : 0 + (pre ++ decl :: mid).length = pre.length + 1 + mid.length := by
    simp; omega
  rwa [e1, e2] at h

/-- An access whose variable is in the incoming set and is not killed in the
block before the access is flagged by the block's transfer. -/
theorem transferFrom_snd_of_incoming (ast : AST) (g : NodeContainer) (t j x : Nat)
    (acc : VariableOccurrence) (S : Finset Nat) (A : Finset OccurrencePtr)
    (hget : (g.occurrences t)[j]? = some acc)
    (hacc : acc.kind = Kind.Access ∧ acc.declaration = x)
    (hs : ast.dataStoredInStorage x = true)
    (hno : noKill ((g.occurrences t).take j) x) (hx : x ∈ S) :
    occurrencePtr t j ∈ (transferFrom ast t 0 (g.occurrences t) (S, A)).2 := by
  obtain ⟨hlt, hval⟩ := List.getElem?_eq_some_iff.mp hget
  have hsplit : g.occurrences t
      = (g.occurrences t).take j ++ acc :: (g.occurrences t).drop (j + 1) := by
    rw [← hval, List.getElem_cons_drop, List.take_append_drop]
  have h := transferFrom_snd_of_access ast t x 0 ((g.occurrences t).take j)
    ((g.occurrences t).drop (j + 1)) acc (S, A) hacc hs
    (transferFrom_fst_of_noKill ast t x _ 0 (S, A) hx hno)
  rw [← hsplit] at h
  have hlen : 0 + ((g.occurrences t).take j).length = j := by
    rw [List.length_take]; omega
  rwa [hlen] at h

/-! ## The propagation to the exits and one iteration -/

theorem propagate_unassigned (node : Nat) (s : State) (e m : Nat) :
    (propagate node s e).unassigned m
      = if m = e then s.unassigned e ∪ s.unassigned node else s.unassigned m := rfl

theorem propagate_unassignedAccess (node : Nat) (s : State) (e m : Nat) :
    (propagate node s e).unassignedAccess m
      = if m = e then s.unassignedAccess e ∪ s.unassignedAccess node
        else s.unassignedAccess m := rfl

theorem propagate_unassigned_node (node : Nat) (s : State) (e : Nat) :
    (propagate node s e).unassigned node = s.unassigned node := by
  rw [propagate_unassigned]
  split_ifs with h
  · rw [← h, Finset.union_self]
  · rfl

theorem propagate_unassignedAccess_node (node : Nat) (s : State) (e : Nat) :
    (propagate node s e).unassignedAccess node = s.unassignedAccess node := by
  rw [propagate_unassignedAccess]
  split_ifs with h
  · rw [← h, Finset.union_self]
  · rfl

theorem propagate_unassigned_mono (node : Nat) (s : State) (e m : Nat) :
    s.unassigned m ⊆ (propagate node s e).unassigned m := by
  rw [propagate_unassigned]
  split_ifs with h
  · rw [h]; exact Finset.subset_union_left
  · exact Finset.Subset.refl _

theorem propagate_unassignedAccess_mono (node : Nat) (s : State) (e m : Nat) :
    s.unassignedAccess m ⊆ (propagate node s e).unassignedAccess m := by
  rw [propagate_unassignedAccess]
  split_ifs with h
  · rw [h]; exact Finset.subset_union_left
  · exact Finset.Subset.refl _

theorem propagate_stack_subset (node : Nat) (s : State) (e m : Nat)
    (h : m ∈ s.nodesToTraverse) : m ∈ (propagate node s e).nodesToTraverse := by
  simp only [propagate]
  split_ifs
  · exact List.mem_cons_of_mem _ h
  · exact h

theorem propagate_stack_mem (node : Nat) (s : State) (e m : Nat)
    (h : m ∈ (propagate node s e).nodesToTraverse) : m = e ∨ m ∈ s.nodesToTraverse := by
  simp only [propagate] at h
  split_ifs at h
  · exact List.mem_cons.mp h
  · exact Or.inr h

/-- A node that one propagation step does not leave on the stack keeps both of
its sets. -/
theorem propagate_unchanged (node : Nat) (s : State) (e m : Nat)
    (h : m ∉ (propagate node s e).nodesToTraverse) :
    (propagate node s e).unassigned m = s.unassigned m ∧
      (propagate node s e).unassignedAccess m = s.unassignedAccess m := by
  by_cases hm : m = e
  · subst hm
    have hno : ¬ ((s.unassigned m).card < (s.unassigned m ∪ s.unassigned node).card) ∧
        ¬ ((s.unassignedAccess m).card <
          (s.unassignedAccess m ∪ s.unassignedAccess node).card) := by
      by_contra hcon
      apply h
      simp only [propagate]
      rw [if_pos]
      · exact List.mem_cons_self _ _
      · simp only [Bool.or_eq_true, decide_eq_true_eq]
        tauto
    rw [propagate_unassigned, propagate_unassignedAccess, if_pos rfl, if_pos rfl]
    exact ⟨(Finset.eq_of_subset_of_card_le Finset.subset_union_left (not_lt.mp hno.1)).symm,
      (Finset.eq_of_subset_of_card_le Finset.subset_union_left (not_lt.mp hno.2)).symm⟩
  · rw [propagate_unassigned, propagate_unassignedAccess, if_neg hm, if_neg hm]
    exact ⟨rfl, rfl⟩

theorem foldl_propagate_mono (node : Nat) :
    ∀ (exits : List Nat) (s : State) (m : Nat),
      s.unassigned m ⊆ (exits.foldl (propagate node) s).unassigned m ∧
      s.unassignedAccess m ⊆ (exits.foldl (propagate node) s).unassignedAccess m ∧
      (m ∈ s.nodesToTraverse → m ∈ (exits.foldl (propagate node) s).nodesToTraverse) := by
  intro exits
  induction exits with
  | nil => intro s m; exact ⟨Finset.Subset.refl _, Finset.Subset.refl _, id⟩
  | cons e rest ih =>
    intro s m
    obtain ⟨h1, h2, h3⟩ := ih (propagate node s e) m
    exact ⟨(propagate_unassigned_mono node s e m).trans h1,
      (propagate_unassignedAccess_mono node s e m).trans h2,
      fun h => h3 (propagate_stack_subset node s e m h)⟩

theorem foldl_propagate_node (node : Nat) :
    ∀ (exits : List Nat) (s : State),
      (exits.foldl (propagate node) s).unassigned node = s.unassigned node ∧
      (exits.foldl (propagate node) s).unassignedAccess node = s.unassignedAccess node := by
  intro exits
  induction exits with
  | nil => intro s; exact ⟨rfl, rfl⟩
  | cons e rest ih =>
    intro s
    obtain ⟨h1, h2⟩ := ih (propagate node s e)
    exact ⟨h1.trans (propagate_unassigned_node node s e),
      h2.trans (propagate_unassignedAccess_node node s e)⟩

theorem foldl_propagate_exit (node : Nat) :
    ∀ (exits : List Nat) (s : State) (e : Nat), e ∈ exits →
      s.unassigned node ⊆ (exits.foldl (propagate node) s).unassigned e ∧
      s.unassignedAccess node ⊆ (exits.foldl (propagate node) s).unassignedAccess e := by
  intro exits
  induction exits with
  | nil => intro s e he; exact absurd he (List.not_mem_nil e)
  | cons e0 rest ih =>
    intro s e he
    rcases List.mem_cons.mp he with h | h
    · subst h
      obtain ⟨h1, h2, _⟩ := foldl_propagate_mono node rest (propagate node s e) e
      refine ⟨Finset.Subset.trans ?_ h1, Finset.Subset.trans ?_ h2⟩
      · rw [propagate_unassigned, if_pos rfl]; exact Finset.subset_union_right
      · rw [propagate_unassignedAccess, if_pos rfl]; exact Finset.subset_union_right
    · obtain ⟨h1, h2⟩ := ih (propagate node s e0) e h
      rw [propagate_unassigned_node] at h1
      rw [propagate_unassignedAccess_node] at h2
      exact ⟨h1, h2⟩

theorem foldl_propagate_unchanged (node : Nat) :
    ∀ (exits : List Nat) (s : State) (m : Nat),
      m ∉ (exits.foldl (propagate node) s).nodesToTraverse →
      (exits.foldl (propagate node) s).unassigned m = s.unassigned m ∧
      (exits.foldl (propagate node) s).unassignedAccess m = s.unassignedAccess m := by
  intro exits
  induction exits with
  | nil => intro s m _; exact ⟨rfl, rfl⟩
  | cons e rest ih =>
    intro s m hm
    obtain ⟨h1, h2⟩ := ih (propagate node s e) m hm
    have hm1 : m ∉ (propagate node s e).nodesToTraverse := fun hin =>
      hm ((foldl_propagate_mono node rest (propagate node s e) m).2.2 hin)
    obtain ⟨h3, h4⟩ := propagate_unchanged node s e m hm1
    exact ⟨h1.trans h3, h2.trans h4⟩

theorem foldl_propagate_stack_mem (node : Nat) :
    ∀ (exits : List Nat) (s : State) (m : Nat),
      m ∈ (exits.foldl (propagate node) s).nodesToTraverse →
      m ∈ exits ∨ m ∈ s.nodesToTraverse := by
  intro exits
  induction exits with
  | nil => intro s m h; exact Or.inr h
  | cons e rest ih =>
    intro s m h
    rcases ih (propagate node s e) m h with h1 | h1
    · exact Or.inl (List.mem_cons_of_mem _ h1)
    · rcases propagate_stack_mem node s e m h1 with h2 | h2
      · exact Or.inl (h2 ▸ List.mem_cons_self _ _)
      · exact Or.inr h2

theorem foldl_propagate_mem (node : Nat) :
    ∀ (exits : List Nat) (s : State) (m : Nat),
      (∀ x, x ∈ (exits.foldl (propagate node) s).unassigned m →
        x ∈ s.unassigned m ∨ (m ∈ exits ∧ x ∈ s.unassigned node)) ∧
      (∀ o, o ∈ (exits.foldl (propagate node) s).unassignedAccess m →
        o ∈ s.unassignedAccess m ∨ (m ∈ exits ∧ o ∈ s.unassignedAccess node)) := by
  intro exits
  induction exits with
  | nil => intro s m; exact ⟨fun x h => Or.inl h, fun o h => Or.inl h⟩
  | cons e rest ih =>
    intro s m
    obtain ⟨h1, h2⟩ := ih (propagate node s e) m
    constructor
    · intro x hx
      rcases h1 x hx with h | ⟨hm, h⟩
      · rw [propagate_unassigned] at h
        split_ifs at h with hme
        · rcases Finset.mem_union.mp h with h' | h'
          · exact Or.inl (hme ▸ h')
          · exact Or.inr ⟨hme ▸ List.mem_cons_self _ _, h'⟩
        · exact Or.inl h
      · rw [propagate_unassigned_node] at h
        exact Or.inr ⟨List.mem_cons_of_mem _ hm, h⟩
    · intro o ho
      rcases h2 o ho with h | ⟨hm, h⟩
      · rw [propagate_unassignedAccess] at h
        split_ifs at h with hme
        · rcases Finset.mem_union.mp h with h' | h'
          · exact Or.inl (hme ▸ h')
          · exact Or.inr ⟨hme ▸ List.mem_cons_self _ _, h'⟩
        · exact Or.inl h
      · rw [propagate_unassignedAccess_node] at h
        exact Or.inr ⟨List.mem_cons_of_mem _ hm, h⟩

theorem foldl_propagate_access (g : NodeContainer) (P : Nat → OccurrencePtr → Prop) (node : Nat)
    (hedge : ∀ m o, m ∈ g.exits node → P node o → P m o) :
    ∀ (exits : List Nat) (s : State), (∀ e ∈ exits, e ∈ g.exits node) →
      (∀ m o, o ∈ s.unassignedAccess m → P m o) →
      ∀ m o, o ∈ (exits.foldl (propagate node) s).unassignedAccess m → P m o := by
  intro exits
  induction exits with
  | nil => intro s _ hs; exact hs
  | cons e rest ih =>
    intro s he hs
    simp only [List.foldl_cons]
    apply ih
    · exact fun e1 h1 => he e1 (List.mem_cons_of_mem _ h1)
    · intro m o ho
      simp only [propagate, setAt] at ho
      split_ifs at ho with hm
      · rcases Finset.mem_union.mp ho with h1 | h1
        · exact hs m o (hm ▸ h1)
        · exact hm ▸ hedge e o (he e (List.mem_cons_self _ _)) (hs node o h1)
      · exact hs m o ho

/-- What one iteration that pops `n0` does to the two maps and to the stack. -/
theorem visitNode_facts (ast : AST) (g : NodeContainer) (n0 : Nat) (rest : List Nat)
    (s : State) :
    (visitNode ast g n0 rest s).unassigned n0
      = (transferFrom ast n0 0 (g.occurrences n0)
          (s.unassigned n0, s.unassignedAccess n0)).1 ∧
    (visitNode ast g n0 rest s).unassignedAccess n0
      = (transferFrom ast n0 0 (g.occurrences n0)
          (s.unassigned n0, s.unassignedAccess n0)).2 ∧
    (∀ e ∈ g.exits n0,
      (visitNode ast g n0 rest s).unassigned n0 ⊆ (visitNode ast g n0 rest s).unassigned e ∧
      (visitNode ast g n0 rest s).unassignedAccess n0
        ⊆ (visitNode ast g n0 rest s).unassignedAccess e) ∧
    (∀ m, m ≠ n0 → s.unassigned m ⊆ (visitNode ast g n0 rest s).unassigned m) ∧
    (∀ m, s.unassignedAccess m ⊆ (visitNode ast g n0 rest s).unassignedAccess m) ∧
    (∀ m, m ≠ n0 → m ∉ (visitNode ast g n0 rest s).nodesToTraverse →
      (visitNode ast g n0 rest s).unassigned m = s.unassigned m ∧
      (visitNode ast g n0 rest s).unassignedAccess m = s.unassignedAccess m) ∧
    (∀ m ∈ rest, m ∈ (visitNode ast g n0 rest s).nodesToTraverse) ∧
    (∀ m ∈ (visitNode ast g n0 rest s).nodesToTraverse, m ∈ g.exits n0 ∨ m ∈ rest) := by
  have hnode := foldl_propagate_node n0 (g.exits n0)
    { unassigned := setAt s.unassigned n0 (transferFrom ast n0 0 (g.occurrences n0)
        (s.unassigned n0, s.unassignedAccess n0)).1
      unassignedAccess := setAt s.unassignedAccess n0 (transferFrom ast n0 0 (g.occurrences n0)
        (s.unassigned n0, s.unassignedAccess n0)).2
      nodesToTraverse := rest }
  have hU : (visitNode ast g n0 rest s).unassigned n0
      = (transferFrom ast n0 0 (g.occurrences n0)
          (s.unassigned n0, s.unassignedAccess n0)).1 := by
    rw [visitNode]
    exact hnode.1.trans (by simp [setAt])
  have hA : (visitNode ast g n0 rest s).unassignedAccess n0
      = (transferFrom ast n0 0 (g.occurrences n0)
          (s.unassigned n0, s.unassignedAccess n0)).2 := by
    rw [visitNode]
    exact hnode.2.trans (by simp [setAt])
  refine ⟨hU, hA, ?_, ?_, ?_, ?_, ?_, ?_⟩
  · intro e he
    rw [hU, hA]
    have h := foldl_propagate_exit n0 (g.exits n0)
      { unassigned := setAt s.unassigned n0 (transferFrom ast n0 0 (g.occurrences n0)
          (s.unassigned n0, s.unassignedAccess n0)).1
        unassignedAccess := setAt s.unassignedAccess n0
          (transferFrom ast n0 0 (g.occurrences n0)
            (s.unassigned n0, s.unassignedAccess n0)).2
        nodesToTraverse := rest } e he
    simpa [setAt, visitNode] using h
  · intro m hm
    have h := (foldl_propagate_mono n0 (g.exits n0)
      { unassigned := setAt s.unassigned n0 (transferFrom ast n0 0 (g.occurrences n0)
          (s.unassigned n0, s.unassignedAccess n0)).1
        unassignedAccess := setAt s.unassignedAccess n0
          (transferFrom ast n0 0 (g.occurrences n0)
            (s.unassigned n0, s.unassignedAccess n0)).2
        nodesToTraverse := rest } m).1
    simpa [setAt, visitNode, hm] using h
  · intro m
    by_cases hm : m = n0
    · subst hm
      rw [hA]
      exact transferFrom_snd_mono ast m (g.occurrences m) 0
        (s.unassigned m, s.unassignedAccess m)
    · have h := (foldl_propagate_mono n0 (g.exits n0)
        { unassigned := setAt s.unassigned n0 (transferFrom ast n0 0 (g.occurrences n0)
            (s.unassigned n0, s.unassignedAccess n0)).1
          unassignedAccess := setAt s.unassignedAccess n0
            (transferFrom ast n0 0 (g.occurrences n0)
              (s.unassigned n0, s.unassignedAccess n0)).2
          nodesToTraverse := rest } m).2.1
      simpa [setAt, visitNode, hm] using h
  · intro m hm hstack
    have h := foldl_propagate_unchanged n0 (g.exits n0)
      { unassigned := setAt s.unassigned n0 (transferFrom ast n0 0 (g.occurrences n0)
          (s.unassigned n0, s.unassignedAccess n0)).1
        unassignedAccess := setAt s.unassignedAccess n0
          (transferFrom ast n0 0 (g.occurrences n0)
            (s.unassigned n0, s.unassignedAccess n0)).2
        nodesToTraverse := rest } m hstack
    simpa [setAt, visitNode, hm] using h
  · intro m hm
    exact (foldl_propagate_mono n0 (g.exits n0) _ m).2.2 hm
  · intro m hm
    exact foldl_propagate_stack_mem n0 (g.exits n0) _ m hm

/-- Where the members of the two sets of a node come from in one iteration:
they were there before, or the transfer of the popped node produced them and
the node is the popped node or one of its exits. -/
theorem visitNode_mem (ast : AST) (g : NodeContainer) (n0 : Nat) (rest : List Nat)
    (s : State) (m : Nat) :
    (∀ x, x ∈ (visitNode ast g n0 rest s).unassigned m →
      (m ≠ n0 ∧ x ∈ s.unassigned m) ∨
      (x ∈ (transferFrom ast n0 0 (g.occurrences n0)
          (s.unassigned n0, s.unassignedAccess n0)).1 ∧ (m = n0 ∨ m ∈ g.exits n0))) ∧
    (∀ o, o ∈ (visitNode ast g n0 rest s).unassignedAccess m →
      (m ≠ n0 ∧ o ∈ s.unassignedAccess m) ∨
      (o ∈ (transferFrom ast n0 0 (g.occurrences n0)
          (s.unassigned n0, s.unassignedAccess n0)).2 ∧ (m = n0 ∨ m ∈ g.exits n0))) := by
  obtain ⟨h1, h2⟩ := foldl_propagate_mem n0 (g.exits n0)
    { unassigned := setAt s.unassigned n0 (transferFrom ast n0 0 (g.occurrences n0)
        (s.unassigned n0, s.unassignedAccess n0)).1
      unassignedAccess := setAt s.unassignedAccess n0 (transferFrom ast n0 0 (g.occurrences n0)
        (s.unassigned n0, s.unassignedAccess n0)).2
      nodesToTraverse := rest } m
  constructor
  · intro x hx
    rcases h1 x hx with h | ⟨hm, h⟩
    · simp only [setAt] at h
      split_ifs at h with hmn
      · exact Or.inr ⟨h, Or.inl hmn⟩
      · exact Or.inl ⟨hmn, h⟩
    · simp only [setAt, if_true] at h
      exact Or.inr ⟨h, Or.inr hm⟩
  · intro o ho
    rcases h2 o ho with h | ⟨hm, h⟩
    · simp only [setAt] at h
      split_ifs at h with hmn
      · exact Or.inr ⟨h, Or.inl hmn⟩
      · exact Or.inl ⟨hmn, h⟩
    · simp only [setAt, if_true] at h
      exact Or.inr ⟨h, Or.inr hm⟩

theorem step_access (ast : AST) (g : NodeContainer) (P : Nat → OccurrencePtr → Prop)
    (hedge : ∀ n m o, m ∈ g.exits n → P n o → P m o)
    (hlocal : ∀ n S A o, (∀ a ∈ A, P n a) →
      o ∈ (transferFrom ast n 0 (g.occurrences n) (S, A)).2 → P n o)
    (s : State) (hs : ∀ m o, o ∈ s.unassignedAccess m → P m o) :
    ∀ m o, o ∈ (step ast g s).unassignedAccess m → P m o := by
  unfold step
  split
  · exact hs
  · next node rest _ =>
    unfold visitNode
    apply foldl_propagate_access g P node (hedge node) _ _ (fun _ h => h)
    intro m o ho
    simp only [setAt] at ho
    split_ifs at ho with hm
    · subst hm
      exact hlocal m _ _ o (fun a ha => hs m a ha) ho
    · exact hs m o ho

theorem iterations_access (ast : AST) (g : NodeContainer) (P : Nat → OccurrencePtr → Prop)
    (hedge : ∀ n m o, m ∈ g.exits n → P n o → P m o)
    (hlocal : ∀ n S A o, (∀ a ∈ A, P n a) →
      o ∈ (transferFrom ast n 0 (g.occurrences n) (S, A)).2 → P n o)
    (e : Nat) : ∀ k m o, o ∈ (iterations ast g e k).unassignedAccess m → P m o := by
  intro k
  induction k with
  | zero => intro m o ho; simp [iterations, initialState] at ho
  | succ k ih => exact step_access ast g P hedge hlocal _ ih

/-- The `unassignedAccess` sets only grow from one iteration to the next. -/
theorem step_unassignedAccess_mono (ast : AST) (g : NodeContainer) (s : State) (m : Nat) :
    s.unassignedAccess m ⊆ (step ast g s).unassignedAccess m := by
  unfold step
  split
  · exact Finset.Subset.refl _
  · next n0 rest _ => exact (visitNode_facts ast g n0 rest s).2.2.2.2.1 m

theorem iterations_unassignedAccess_mono (ast : AST) (g : NodeContainer) (e m : Nat) :
    ∀ (k d : Nat), (iterations ast g e k).unassignedAccess m
      ⊆ (iterations ast g e (k + d)).unassignedAccess m := by
  intro k d
  induction d with
  | zero => exact Finset.Subset.refl _
  | succ d ih => exact ih.trans (step_unassignedAccess_mono ast g _ m)

theorem step_unassigned_keeps (ast : AST) (g : NodeContainer) (s : State) (e x : Nat)
    (hno : noKill (g.occurrences e) x) (hx : x ∈ s.unassigned e) :
    x ∈ (step ast g s).unassigned e := by
  unfold step
  split
  · exact hx
  · next n0 rest _ =>
    obtain ⟨hU, _, _, hmono, _⟩ := visitNode_facts ast g n0 rest s
    by_cases he : e = n0
    · subst he
      rw [hU]
      exact transferFrom_fst_of_noKill ast e x _ 0 _ hx hno
    · exact hmono e he hx

/-- The access set of a node holds, from the iteration that pops the node on,
what the block's transfer flags. -/
theorem flagged_after_visit (ast : AST) (g : NodeContainer) (e k n : Nat)
    (hk : (iterations ast g e k).nodesToTraverse.head? = some n) :
    (transferFrom ast n 0 (g.occurrences n) ((iterations ast g e k).unassigned n,
      (iterations ast g e k).unassignedAccess n)).2
      ⊆ (iterations ast g e (k + 1)).unassignedAccess n := by
  show _ ⊆ (step ast g (iterations ast g e k)).unassignedAccess n
  unfold step
  split
  · next hstack => rw [hstack] at hk; simp at hk
  · next n0 rest hstack =>
    rw [hstack] at hk
    simp only [List.head?_cons, Option.some.injEq] at hk
    subst hk
    rw [(visitNode_facts ast g n0 rest (iterations ast g e k)).2.1]

/-! ## Invariants of the worklist loop -/

theorem pathTo_entry (g : NodeContainer) (e : Nat) : pathTo g e [] e :=
  ⟨List.chain'_singleton e, rfl⟩

theorem pathTo_snoc (g : NodeContainer) (e : Nat) (path : List Nat) (n m : Nat)
    (h : pathTo g e path n) (hm : g.edge n m) : pathTo g e (path ++ [n]) m := by
  refine ⟨?_, ?_⟩
  · have hsplit : path ++ [n] ++ [m] = path ++ n :: [m] := by simp
    rw [hsplit, List.chain'_split]
    exact ⟨h.1, List.chain'_pair.mpr hm⟩
  · rw [List.head?_append_of_ne_nil _ (by simp)]
    exact h.2

theorem pathTo_of_reaches (g : NodeContainer) (e n : Nat) (h : g.reaches e n) :
    ∃ path, pathTo g e path n := by
  induction h with
  | refl => exact ⟨[], pathTo_entry g e⟩
  | tail _ hbc ih =>
    obtain ⟨path, hp⟩ := ih
    exact ⟨_, pathTo_snoc g e path _ _ hp hbc⟩

theorem chain_of_reaches (g : NodeContainer) (n x : Nat) (h : g.reaches n x) :
    ∃ after, List.Chain' g.edge (n :: after) ∧ (n :: after).getLast? = some x := by
  obtain ⟨path, hchain, hhead⟩ := pathTo_of_reaches g n x h
  cases path with
  | nil =>
    simp only [List.nil_append, List.head?_cons, Option.some.injEq] at hhead
    subst hhead
    exact ⟨[], List.chain'_singleton _, rfl⟩
  | cons a path =>
    simp only [List.cons_append, List.head?_cons, Option.some.injEq] at hhead
    subst hhead
    exact ⟨path ++ [x], hchain, by
      rw [← List.cons_append, List.getLast?_concat]⟩

/-- Every member of any `unassignedAccess` set points to an `Access`
occurrence of its node's block whose declaration is storage-located. -/
theorem flagged_is_storage_access (ast : AST) (g : NodeContainer) (functionEntry : Nat)
    (k m : Nat) (o : OccurrencePtr)
    (h : o ∈ (iterations ast g functionEntry k).unassignedAccess m) :
    o.index < (g.occurrences o.node).length ∧ (g.deref o).kind = Kind.Access ∧
      ast.dataStoredInStorage (g.deref o).declaration = true := by
  refine iterations_access ast g (fun _ o => o.index < (g.occurrences o.node).length ∧
    (g.deref o).kind = Kind.Access ∧ ast.dataStoredInStorage (g.deref o).declaration = true)
    (fun _ _ _ _ h1 => h1) ?_ functionEntry k m o h
  intro n S A o hA ho
  rcases mem_transferFrom_snd ast n _ 0 _ _ ho with h1 | ⟨j, vo, hj, hoj, hkind, hst, _⟩
  · exact hA o h1
  · rw [Nat.zero_add] at hoj
    subst hoj
    rw [deref_occurrencePtr g n j vo hj]
    refine ⟨?_, hkind, hst⟩
    obtain ⟨hlt, _⟩ := List.getElem?_eq_some_iff.mp hj
    simpa [occurrencePtr, OccurrencePtr.node, OccurrencePtr.index] using hlt

/-- Every member of `unassignedAccess[m]` belongs to a node from which `m` is
reachable along `exits` edges. -/
theorem flagged_reaches (ast : AST) (g : NodeContainer) (functionEntry : Nat)
    (k m : Nat) (o : OccurrencePtr)
    (h : o ∈ (iterations ast g functionEntry k).unassignedAccess m) :
    g.reaches o.node m := by
  refine iterations_access ast g (fun m o => g.reaches o.node m)
    (fun n m o hm hn => Relation.ReflTransGen.tail hn hm) ?_ functionEntry k m o h
  intro n S A o hA ho
  rcases mem_transferFrom_snd ast n _ 0 _ _ ho with h1 | ⟨j, vo, _, hoj, _⟩
  · exact hA o h1
  · subst hoj
    exact Relation.ReflTransGen.refl

/-- Every member of an `unassignedAccess` set belongs to a traversed node. -/
theorem flagged_traversed (ast : AST) (g : NodeContainer) (e : Nat) :
    ∀ k m o, o ∈ (iterations ast g e k).unassignedAccess m → traversed ast g e o.node := by
  intro k
  induction k with
  | zero => intro m o ho; simp [iterations, initialState] at ho
  | succ k ih =>
    intro m o
    show o ∈ (step ast g (iterations ast g e k)).unassignedAccess m → _
    unfold step
    split
    · exact ih m o
    · next n0 rest hstack =>
      unfold visitNode
      apply foldl_propagate_access g (fun _ o => traversed ast g e o.node) n0
        (fun _ _ _ h => h) _ _ (fun _ h => h)
      intro m1 o1 ho1
      simp only [setAt] at ho1
      split_ifs at ho1 with hm
      · rcases mem_transferFrom_snd ast n0 _ 0 _ o1 ho1 with h1 | ⟨i, _, _, hoi, _⟩
        · exact ih n0 o1 h1
        · subst hoi
          exact ⟨k, by rw [hstack]; rfl⟩
      · exact ih m1 o1 ho1

/-- Every node on the stack is reachable from the entry node. -/
theorem stack_reaches (ast : AST) (g : NodeContainer) (e : Nat) :
    ∀ k, ∀ n ∈ (iterations ast g e k).nodesToTraverse, g.reaches e n := by
  intro k
  induction k with
  | zero =>
    intro n hn
    simp only [iterations, initialState, List.mem_singleton] at hn
    subst hn
    exact Relation.ReflTransGen.refl
  | succ k ih =>
    intro n
    show n ∈ (step ast g (iterations ast g e k)).nodesToTraverse → _
    unfold step
    split
    · exact ih n
    · next n0 rest hstack =>
      intro hn
      rcases (visitNode_facts ast g n0 rest _).2.2.2.2.2.2.2 n hn with h | h
      · exact Relation.ReflTransGen.tail (ih n0 (by rw [hstack]; exact List.mem_cons_self _ _)) h
      · exact ih n (by rw [hstack]; exact List.mem_cons_of_mem _ h)

theorem traversed_reaches (ast : AST) (g : NodeContainer) (e n : Nat)
    (h : traversed ast g e n) : g.reaches e n := by
  obtain ⟨k, hk⟩ := h
  exact stack_reaches ast g e k n (List.mem_of_mem_head? hk)

/-- What the transfer of the popped node leaves in its unassigned set is
declared and not killed afterwards along a path that runs through the node's
block. -/
theorem transferred_carried (ast : AST) (g : NodeContainer) (e n0 x : Nat)
    (S : Finset Nat) (A : Finset OccurrencePtr)
    (hreach : g.reaches e n0) (hS : ∀ y ∈ S, carried g e n0 y)
    (hx : x ∈ (transferFrom ast n0 0 (g.occurrences n0) (S, A)).1) :
    ∃ path, pathTo g e path n0 ∧ live (path.flatMap g.occurrences ++ g.occurrences n0) x := by
  rcases transferFrom_fst_cases ast n0 x _ 0 _ hx with h | ⟨h1, h2⟩
  · obtain ⟨path, hp⟩ := pathTo_of_reaches g e n0 hreach
    exact ⟨path, hp, live_append_left _ h⟩
  · obtain ⟨path, hp, h3 | h3⟩ := hS x h1
    · exact ⟨path, hp, live_append_right h3 h2⟩
    · exact ⟨path, hp, h3⟩

/-- Every variable recorded at a node is carried there along some path from
the entry node. -/
theorem recorded_carried (ast : AST) (g : NodeContainer) (e : Nat) :
    ∀ k n x, x ∈ (iterations ast g e k).unassigned n → carried g e n x := by
  intro k
  induction k with
  | zero => intro n x hx; simp [iterations, initialState] at hx
  | succ k ih =>
    intro n x
    show x ∈ (step ast g (iterations ast g e k)).unassigned n → _
    unfold step
    split
    · exact ih n x
    · next n0 rest hstack =>
      intro hx
      rcases (visitNode_mem ast g n0 rest _ n).1 x hx with ⟨_, h⟩ | ⟨h, hn⟩
      · exact ih n x h
      · have hreach : g.reaches e n0 :=
          stack_reaches ast g e k n0 (by rw [hstack]; exact List.mem_cons_self _ _)
        obtain ⟨path, hp, hl⟩ := transferred_carried ast g e n0 x _ _ hreach (ih n0) h
        rcases hn with hn | hn
        · subst hn
          exact ⟨path, hp, Or.inr hl⟩
        · refine ⟨path ++ [n0], pathTo_snoc g e path n0 n hp hn, Or.inl ?_⟩
          simpa [List.flatMap_append] using hl

/-- Every member of an `unassignedAccess` set whose block holds no declaration
of its variable after it lies on a path from the entry node along which the
variable is declared before it and not killed in between. -/
theorem flagged_on_path (ast : AST) (g : NodeContainer) (e : Nat) :
    ∀ k m o, o ∈ (iterations ast g e k).unassignedAccess m →
      (∀ vo ∈ (g.occurrences o.node).drop (o.index + 1),
        ¬ (vo.kind = Kind.Declaration ∧ vo.declaration = (g.deref o).declaration)) →
      ∃ path, pathTo g e path o.node ∧
        live (path.flatMap g.occurrences ++ (g.occurrences o.node).take o.index)
          (g.deref o).declaration := by
  intro k
  induction k with
  | zero => intro m o ho; simp [iterations, initialState] at ho
  | succ k ih =>
    intro m o
    show o ∈ (step ast g (iterations ast g e k)).unassignedAccess m → _
    unfold step
    split
    · exact ih m o
    · next n0 rest hstack =>
      intro ho hfree
      rcases (visitNode_mem ast g n0 rest _ m).2 o ho with ⟨_, h⟩ | ⟨h, _⟩
      · exact ih m o h hfree
      · rcases mem_transferFrom_snd ast n0 _ 0 _ o h with h1 | ⟨j, vo, hj, hoj, hkind, _, hmem⟩
        · exact ih n0 o h1 hfree
        · rw [Nat.zero_add] at hoj
          subst hoj
          have hderef := deref_occurrencePtr g n0 j vo hj
          have hnode : (occurrencePtr n0 j).node = n0 := rfl
          have hindex : (occurrencePtr n0 j).index = j := rfl
          rw [hderef, hnode, hindex] at hfree ⊢
          have hreach : g.reaches e n0 :=
            stack_reaches ast g e k n0 (by rw [hstack]; exact List.mem_cons_self _ _)
          obtain ⟨path0, hp0⟩ := pathTo_of_reaches g e n0 hreach
          rcases transferFrom_fst_cases ast n0 vo.declaration _ 0 _ hmem with h2 | ⟨h2, h3⟩
          · exact ⟨path0, hp0, live_append_left _ h2⟩
          · obtain ⟨path, hp, h4 | h4⟩ := recorded_carried ast g e k n0 _ h2
            · exact ⟨path, hp, live_append_right h4 h3⟩
            · rcases live_append_cases h4 with h5 | ⟨h5, _⟩
              · rcases live_take_cases h5 j with h6 | ⟨decl, hdecl, hdk, hdd⟩
                · exact ⟨path0, hp0, live_append_left _ h6⟩
                · exfalso
                  obtain ⟨hlt, hval⟩ := List.getElem?_eq_some_iff.mp hj
                  rw [List.drop_eq_getElem_cons hlt, hval] at hdecl
                  rcases List.mem_cons.mp hdecl with h7 | h7
                  · rw [h7, hkind] at hdk
                    exact absurd hdk (by decide)
                  · exact hfree decl h7 ⟨hdk, hdd⟩
              · exact ⟨path, hp, live_append_right h5 h3⟩

/-- A finished pass flags only reads that are unsafe on some path from the
entry node to the exit node, as far as reads are concerned whose block holds
no declaration of the variable after the read. -/
theorem flagged_unsafeOnSomePath (ast : AST) (g : NodeContainer)
    (functionEntry functionExit k : Nat) (o : OccurrencePtr)
    (ho : o ∈ (iterations ast g functionEntry k).unassignedAccess functionExit)
    (hfree : ∀ vo ∈ (g.occurrences o.node).drop (o.index + 1),
      ¬ (vo.kind = Kind.Declaration ∧ vo.declaration = (g.deref o).declaration)) :
    unsafeOnSomePath ast g functionEntry functionExit o := by
  obtain ⟨hlt, hkind, hs⟩ := flagged_is_storage_access ast g functionEntry k functionExit o ho
  obtain ⟨path, ⟨hchain, hhead⟩, pre, mid, decl, hread, hdk, hdd, hmid⟩ :=
    flagged_on_path ast g functionEntry k functionExit o ho hfree
  obtain ⟨after, hafter, hlast⟩ := chain_of_reaches g o.node functionExit
    (flagged_reaches ast g functionEntry k functionExit o ho)
  refine ⟨path, after, g.deref o, List.chain'_split.mpr ⟨hchain, hafter⟩, ?_, ?_,
    deref_of_lt g o hlt, hkind, hs, pre, mid, decl, hread, hdk, hdd, hmid⟩
  · cases path with
    | nil => simpa using hhead
    | cons a path => simpa using hhead
  · rw [List.getLast?_append_of_ne_nil _ (List.cons_ne_nil _ _)]
    exact hlast

/-- The closure of the settled nodes: a node that is not on the stack has
handed its `unassignedAccess` set to each of its exits. -/
theorem closed_iterations (ast : AST) (g : NodeContainer) (e : Nat) :
    ∀ (k n : Nat), n ∉ (iterations ast g e k).nodesToTraverse → ∀ m ∈ g.exits n,
      (iterations ast g e k).unassignedAccess n ⊆ (iterations ast g e k).unassignedAccess m := by
  intro k
  induction k with
  | zero =>
    intro n _ m _
    simp [iterations, initialState]
  | succ k ih =>
    intro n hn m hm
    show (step ast g (iterations ast g e k)).unassignedAccess n
      ⊆ (step ast g (iterations ast g e k)).unassignedAccess m
    have hn1 : n ∉ (step ast g (iterations ast g e k)).nodesToTraverse := hn
    revert hn1
    unfold step
    split
    · next hstack =>
      intro hn1
      exact ih n (by rw [hstack]; exact List.not_mem_nil n) m hm
    · next n0 rest hstack =>
      intro hn1
      obtain ⟨_, _, hexit, _, hmono, hsame, hrest, _⟩ :=
        visitNode_facts ast g n0 rest (iterations ast g e k)
      by_cases hn0 : n = n0
      · subst hn0
        exact (hexit m hm).2
      · have hnold : n ∉ (iterations ast g e k).nodesToTraverse := by
          rw [hstack]
          intro hin
          rcases List.mem_cons.mp hin with h | h
          · exact hn0 h
          · exact hn1 (hrest n h)
        rw [(hsame n hn0 hn1).2]
        exact (ih n hnold m hm).trans (hmono m)

/-- Once the stack is empty, the `unassignedAccess` set of a node is a subset
of that of every node reachable from it. -/
theorem closed_reaches (ast : AST) (g : NodeContainer) (e k : Nat)
    (hk : (iterations ast g e k).nodesToTraverse = []) (n m : Nat) (h : g.reaches n m) :
    (iterations ast g e k).unassignedAccess n ⊆ (iterations ast g e k).unassignedAccess m := by
  induction h with
  | refl => exact Finset.Subset.refl _
  | tail _ hbc ih =>
    exact ih.trans (closed_iterations ast g e k _ (by rw [hk]; exact List.not_mem_nil _) _ hbc)

/-- The access of a traversed block `Declaration(x) ... Access(x)`, with no
kill of `x` in between, is in `unassignedAccess[exit]` when the pass has
finished, provided the exit is reachable from the block's node. -/
theorem traversed_block_access_reported (ast : AST) (g : NodeContainer)
    (functionEntry functionExit N x K : Nat) (pre mid post : List VariableOccurrence)
    (decl acc : VariableOccurrence)
    (hblock : g.occurrences N = pre ++ decl :: (mid ++ acc :: post))
    (hdecl : decl.kind = Kind.Declaration ∧ decl.declaration = x)
    (hacc : acc.kind = Kind.Access ∧ acc.declaration = x)
    (hs : ast.dataStoredInStorage x = true) (hmid : noKill mid x)
    (hexit : g.reaches N functionExit)
    (htrav : traversed ast g functionEntry N)
    (hK : (iterations ast g functionEntry K).nodesToTraverse = []) :
    occurrencePtr N (pre.length + 1 + mid.length)
      ∈ (iterations ast g functionEntry K).unassignedAccess functionExit := by
  obtain ⟨k, hk⟩ := htrav
  have hlt := lt_of_head_of_empty ast g functionEntry k K N hk hK
  have hflag : occurrencePtr N (pre.length + 1 + mid.length)
      ∈ (iterations ast g functionEntry (k + 1)).unassignedAccess N := by
    apply flagged_after_visit ast g functionEntry k N hk
    rw [hblock]
    exact transferFrom_snd_of_declaration ast N x pre mid post decl acc _ hdecl hacc hs hmid
  obtain ⟨d, rfl⟩ : ∃ d, K = k + 1 + d := ⟨K - (k + 1), by omega⟩
  exact closed_reaches ast g functionEntry _ hK N functionExit hexit
    (iterations_unassignedAccess_mono ast g functionEntry N (k + 1) d hflag)

/-- A settled node that holds `x` in its recorded set has the access flagged,
when its block does not declare `x`. -/
theorem settled_access_flagged (ast : AST) (g : NodeContainer) (functionEntry t j x : Nat)
    (acc : VariableOccurrence)
    (hget : (g.occurrences t)[j]? = some acc)
    (hacc : acc.kind = Kind.Access ∧ acc.declaration = x)
    (hs : ast.dataStoredInStorage x = true)
    (hno : noKill ((g.occurrences t).take j) x)
    (hnodecl : ∀ vo ∈ g.occurrences t, ¬ (vo.kind = Kind.Declaration ∧ vo.declaration = x)) :
    ∀ k, t ∉ (iterations ast g functionEntry k).nodesToTraverse →
      x ∈ (iterations ast g functionEntry k).unassigned t →
      occurrencePtr t j ∈ (iterations ast g functionEntry k).unassignedAccess t := by
  intro k
  induction k with
  | zero => intro _ hx; simp [iterations, initialState] at hx
  | succ k ih =>
    show t ∉ (step ast g (iterations ast g functionEntry k)).nodesToTraverse →
      x ∈ (step ast g (iterations ast g functionEntry k)).unassigned t →
      occurrencePtr t j ∈ (step ast g (iterations ast g functionEntry k)).unassignedAccess t
    unfold step
    split
    · next hstack => exact ih
    · next n0 rest hstack =>
      intro ht hx
      obtain ⟨hU, hA, _, _, hmono, hsame, hrest, _⟩ :=
        visitNode_facts ast g n0 rest (iterations ast g functionEntry k)
      by_cases htn : t = n0
      · subst htn
        rw [hA]
        rw [hU] at hx
        have hx0 : x ∈ (iterations ast g functionEntry k).unassigned t := by
          by_contra hnot
          exact not_mem_transferFrom_fst ast t x _ 0 _ hnot hnodecl hx
        exact transferFrom_snd_of_incoming ast g t j x acc _ _ hget hacc hs hno hx0
      · have htold : t ∉ (iterations ast g functionEntry k).nodesToTraverse := by
          rw [hstack]
          intro hin
          rcases List.mem_cons.mp hin with h | h
          · exact htn h
          · exact ht (hrest t h)
        rw [(hsame t htn ht).1] at hx
        exact hmono t (ih htold hx)

/-- A settled node that holds `x` in its recorded set has handed `x` to every
exit whose block does not kill it; at the node `t` of the access either `x`
is recorded or the access is already flagged. -/
theorem settled_flow (ast : AST) (g : NodeContainer) (functionEntry t j x : Nat)
    (acc : VariableOccurrence)
    (hget : (g.occurrences t)[j]? = some acc)
    (hacc : acc.kind = Kind.Access ∧ acc.declaration = x)
    (hs : ast.dataStoredInStorage x = true)
    (hno : noKill ((g.occurrences t).take j) x) :
    ∀ k m, m ∉ (iterations ast g functionEntry k).nodesToTraverse →
      x ∈ (iterations ast g functionEntry k).unassigned m → ∀ e ∈ g.exits m,
      (noKill (g.occurrences e) x → x ∈ (iterations ast g functionEntry k).unassigned e) ∧
      (e = t → x ∈ (iterations ast g functionEntry k).unassigned e ∨
        occurrencePtr t j ∈ (iterations ast g functionEntry k).unassignedAccess t) := by
  intro k
  induction k with
  | zero => intro m _ hx; simp [iterations, initialState] at hx
  | succ k ih =>
    intro m
    show m ∉ (step ast g (iterations ast g functionEntry k)).nodesToTraverse →
      x ∈ (step ast g (iterations ast g functionEntry k)).unassigned m → ∀ e ∈ g.exits m,
      (noKill (g.occurrences e) x →
        x ∈ (step ast g (iterations ast g functionEntry k)).unassigned e) ∧
      (e = t → x ∈ (step ast g (iterations ast g functionEntry k)).unassigned e ∨
        occurrencePtr t j ∈ (step ast g (iterations ast g functionEntry k)).unassignedAccess t)
    have hkeep := step_unassigned_keeps ast g (iterations ast g functionEntry k)
    have hmonoA := step_unassignedAccess_mono ast g (iterations ast g functionEntry k)
    revert hkeep hmonoA
    unfold step
    split
    · next hstack => intro _ _; exact ih m
    · next n0 rest hstack =>
      intro hkeep hmonoA hm hx e he
      obtain ⟨hU, hA, hexit, hmono, _, hsame, hrest, _⟩ :=
        visitNode_facts ast g n0 rest (iterations ast g functionEntry k)
      by_cases hmn : m = n0
      · subst hmn
        have hxe := (hexit e he).1 hx
        exact ⟨fun _ => hxe, fun _ => Or.inl hxe⟩
      · have hmold : m ∉ (iterations ast g functionEntry k).nodesToTraverse := by
          rw [hstack]
          intro hin
          rcases List.mem_cons.mp hin with h | h
          · exact hmn h
          · exact hm (hrest m h)
        rw [(hsame m hmn hm).1] at hx
        obtain ⟨h1, h2⟩ := ih m hmold hx e he
        refine ⟨fun hnk => hkeep e x hnk (h1 hnk), fun het => ?_⟩
        rcases h2 het with h3 | h3
        · subst het
          by_cases hen : e = n0
          · subst hen
            refine Or.inr ?_
            rw [hA]
            exact transferFrom_snd_of_incoming ast g e j x acc _ _ hget hacc hs hno h3
          · exact Or.inl (hmono e hen h3)
        · exact Or.inr (hmonoA t h3)

/-- From the iteration that pops the node of a declaration of `x` on, `x`
stays recorded at that node, when the block does not kill `x` after the
declaration. -/
theorem declared_persists (ast : AST) (g : NodeContainer) (functionEntry x : Nat)
    (d : Nat) (pre rest : List VariableOccurrence)
    (decl : VariableOccurrence)
    (hblock : g.occurrences d = pre ++ decl :: rest)
    (hdecl : decl.kind = Kind.Declaration ∧ decl.declaration = x) (hrest : noKill rest x)
    (k0 : Nat) (hk0 : (iterations ast g functionEntry k0).nodesToTraverse.head? = some d) :
    ∀ c, x ∈ (iterations ast g functionEntry (k0 + 1 + c)).unassigned d := by
  have hgen : ∀ S A, x ∈ (transferFrom ast d 0 (g.occurrences d) (S, A)).1 := by
    intro S A
    rw [hblock]
    exact transferFrom_fst_of_declaration ast d x 0 pre rest decl _ hdecl hrest
  have hstep : ∀ s : State, (s.nodesToTraverse.head? = some d ∨ x ∈ s.unassigned d) →
      x ∈ (step ast g s).unassigned d := by
    intro s hs
    unfold step
    split
    · next hstack =>
      rcases hs with h | h
      · rw [hstack] at h; simp at h
      · exact h
    · next n0 rest0 hstack =>
      obtain ⟨hU, _, _, hmono, _⟩ := visitNode_facts ast g n0 rest0 s
      by_cases hdn : d = n0
      · subst hdn
        rw [hU]
        exact hgen _ _
      · rcases hs with h | h
        · rw [hstack] at h
          simp only [List.head?_cons, Option.some.injEq] at h
          exact absurd h.symm hdn
        · exact hmono d hdn h
  intro c
  induction c with
  | zero => exact hstep _ (Or.inl hk0)
  | succ c ih => exact hstep _ (Or.inr ih)

/-- Once the stack is empty, a variable recorded at `d` has travelled along
every path whose inner blocks do not kill it, up to the node of the access. -/
theorem flow_along_path (ast : AST) (g : NodeContainer) (functionEntry t j x K : Nat)
    (acc : VariableOccurrence)
    (hget : (g.occurrences t)[j]? = some acc)
    (hacc : acc.kind = Kind.Access ∧ acc.declaration = x)
    (hs : ast.dataStoredInStorage x = true)
    (hno : noKill ((g.occurrences t).take j) x)
    (hK : (iterations ast g functionEntry K).nodesToTraverse = []) :
    ∀ (between : List Nat) (d : Nat), List.Chain' g.edge (d :: (between ++ [t])) →
      x ∈ (iterations ast g functionEntry K).unassigned d →
      noKill (between.flatMap g.occurrences) x →
      x ∈ (iterations ast g functionEntry K).unassigned t ∨
        occurrencePtr t j ∈ (iterations ast g functionEntry K).unassignedAccess t := by
  have hsettled : ∀ m, m ∉ (iterations ast g functionEntry K).nodesToTraverse := by
    intro m
    rw [hK]
    exact List.not_mem_nil m
  intro between
  induction between with
  | nil =>
    intro d hchain hx _
    simp only [List.nil_append, List.chain'_cons, List.chain'_singleton, and_true] at hchain
    exact (settled_flow ast g functionEntry t j x acc hget hacc hs hno K d (hsettled d) hx t
      hchain).2 rfl
  | cons b bs ih =>
    intro d hchain hx hnk
    simp only [List.cons_append, List.chain'_cons] at hchain
    have hb : noKill (g.occurrences b) x := fun vo hvo =>
      hnk vo (List.mem_flatMap.mpr ⟨b, List.mem_cons_self _ _, hvo⟩)
    have hxb := (settled_flow ast g functionEntry t j x acc hget hacc hs hno K d (hsettled d) hx b
      hchain.1).1 hb
    refine ih b ?_ hxb (fun vo hvo => ?_)
    · simpa [List.chain'_cons] using hchain.2
    · obtain ⟨n, hn, hvn⟩ := List.mem_flatMap.mp hvo
      exact hnk vo (List.mem_flatMap.mpr ⟨n, List.mem_cons_of_mem _ hn, hvn⟩)

/-- The reads of `unsafeOnTraversedPath` are in `unassignedAccess[exit]` once
the stack is empty. -/
theorem unsafeOnTraversedPath_flagged (ast : AST) (g : NodeContainer)
    (functionEntry functionExit K : Nat) (o : OccurrencePtr)
    (hK : (iterations ast g functionEntry K).nodesToTraverse = [])
    (h : unsafeOnTraversedPath ast g functionEntry functionExit o) :
    o ∈ (iterations ast g functionEntry K).unassignedAccess functionExit := by
  obtain ⟨acc, hget, hkind, hs, hexit, hcase⟩ := h
  obtain ⟨hlt, hval⟩ := List.getElem?_eq_some_iff.mp hget
  have hsplit : g.occurrences o.node
      = (g.occurrences o.node).take o.index ++ acc :: (g.occurrences o.node).drop (o.index + 1) := by
    rw [← hval, List.getElem_cons_drop, List.take_append_drop]
  rcases hcase with ⟨htrav, pre, mid, decl, htake, hdk, hdd, hmid⟩ |
    ⟨d, between, pre, rest, decl, htrav, hchain, hblock, hdk, hdd, hnk, hnodecl⟩
  · have hblock : g.occurrences o.node
        = pre ++ decl :: (mid ++ acc :: (g.occurrences o.node).drop (o.index + 1)) := by
      conv_lhs => rw [hsplit, htake]
      simp
    have hidx : o.index = pre.length + 1 + mid.length := by
      have := congrArg List.length htake
      rw [List.length_take] at this
      simp at this
      omega
    have := traversed_block_access_reported ast g functionEntry functionExit o.node
      acc.declaration K pre mid _ decl acc hblock ⟨hdk, hdd⟩ ⟨hkind, rfl⟩ hs hmid hexit htrav hK
    rwa [← hidx, occurrencePtr_eta] at this
  · obtain ⟨k0, hk0⟩ := htrav
    have hlt0 := lt_of_head_of_empty ast g functionEntry k0 K d hk0 hK
    have hrest : noKill rest acc.declaration := fun vo hvo => hnk vo (by simp [hvo])
    have hbetween : noKill (between.flatMap g.occurrences) acc.declaration :=
      fun vo hvo => hnk vo (by
        simp only [List.mem_append]
        exact Or.inl (Or.inr hvo))
    have htake : noKill ((g.occurrences o.node).take o.index) acc.declaration :=
      fun vo hvo => hnk vo (by simp [hvo])
    have hxd : acc.declaration ∈ (iterations ast g functionEntry K).unassigned d := by
      obtain ⟨c, rfl⟩ : ∃ c, K = k0 + 1 + c := ⟨K - (k0 + 1), by omega⟩
      exact declared_persists ast g functionEntry acc.declaration d pre rest decl hblock
        ⟨hdk, hdd⟩ hrest k0 hk0 c
    have hflag : occurrencePtr o.node o.index
        ∈ (iterations ast g functionEntry K).unassignedAccess o.node := by
      rcases flow_along_path ast g functionEntry o.node o.index acc.declaration K acc hget
        ⟨hkind, rfl⟩ hs htake hK between d hchain hxd hbetween with h1 | h1
      · exact settled_access_flagged ast g functionEntry o.node o.index acc.declaration acc hget
          ⟨hkind, rfl⟩ hs htake hnodecl K (by rw [hK]; exact List.not_mem_nil _) h1
      · exact h1
    rw [occurrencePtr_eta] at hflag
    exact closed_reaches ast g functionEntry K hK o.node functionExit hexit hflag

/-! ## What the pass finds among the nodes it pops -/

/-- The exit set in terms of the nodes that the loop pops: when the pass
finishes, (1) every member `o` of the final `unassignedAccess[exit]` is an
`Access` occurrence of a storage-located variable `x` whose node is traversed
and lies on a path from the entry to the exit, and, unless `o`'s block holds a
`Declaration(x)` after `o`, some path from the entry to the exit runs through
`o`'s node such that a `Declaration(x)` comes before `o` with no
`Assignment(x)` or `InlineAssembly(x)` between the two; (2) the set holds every
occurrence that satisfies `unsafeOnTraversedPath`. -/
theorem exit_set_on_traversed_paths (ast : AST) (g : NodeContainer)
    (fuel functionEntry functionExit : Nat) (s : State)
    (hfin : worklist ast g fuel (initialState functionEntry) = some s) :
    (∀ o ∈ s.unassignedAccess functionExit,
      o.index < (g.occurrences o.node).length ∧ (g.deref o).kind = Kind.Access ∧
      ast.dataStoredInStorage (g.deref o).declaration = true ∧
      traversed ast g functionEntry o.node ∧
      g.reaches functionEntry o.node ∧ g.reaches o.node functionExit ∧
      ((∀ vo ∈ (g.occurrences o.node).drop (o.index + 1),
          ¬ (vo.kind = Kind.Declaration ∧ vo.declaration = (g.deref o).declaration)) →
        unsafeOnSomePath ast g functionEntry functionExit o)) ∧
    (∀ o, unsafeOnTraversedPath ast g functionEntry functionExit o →
      o ∈ s.unassignedAccess functionExit) := by
  obtain ⟨K, _, hs, hK⟩ := worklist_initial_some ast g fuel functionEntry s hfin
  subst hs
  refine ⟨fun o ho => ?_, fun o ho => ?_⟩
  · obtain ⟨h1, h2, h3⟩ := flagged_is_storage_access ast g functionEntry K functionExit o ho
    have h4 := flagged_traversed ast g functionEntry K functionExit o ho
    exact ⟨h1, h2, h3, h4, traversed_reaches ast g functionEntry o.node h4,
      flagged_reaches ast g functionEntry K functionExit o ho,
      flagged_unsafeOnSomePath ast g functionEntry functionExit K o ho⟩
  · exact unsafeOnTraversedPath_flagged ast g functionEntry functionExit K o hK ho

/-- On `revertingNodes` the read of node 2 follows the declaration of the
popped entry node along the arc 0, 2 and is in the exit set. -/
theorem exit_set_on_traversed_paths_example :
    worklist exampleAst revertingNodes 6 (initialState 0)
      = some ((step exampleAst revertingNodes)^[6] (initialState 0)) ∧
    unsafeOnTraversedPath exampleAst revertingNodes 0 4 (occurrencePtr 2 0) ∧
    occurrencePtr 2 0
      ∈ ((step exampleAst revertingNodes)^[6] (initialState 0)).unassignedAccess 4 := by
  have hrun : worklist exampleAst revertingNodes 6 (initialState 0)
      = some ((step exampleAst revertingNodes)^[6] (initialState 0)) :=
    worklist_of_empty_at exampleAst revertingNodes 6 6 (initialState 0) (by decide) (le_refl 6)
  have hpath : unsafeOnTraversedPath exampleAst revertingNodes 0 4 (occurrencePtr 2 0) := by
    refine ⟨⟨1, .Access, 12⟩, rfl, rfl, rfl, Relation.ReflTransGen.single (by decide), Or.inr ?_⟩
    refine ⟨0, [], [], [], ⟨1, .Declaration, 10⟩, ⟨0, by decide⟩, ?_, rfl, rfl, rfl, ?_, ?_⟩
    · simp only [List.nil_append, List.chain'_cons, List.chain'_singleton, and_true]
      decide
    · intro vo hvo
      simp at hvo
      exact absurd hvo (by
        show ¬ vo ∈ List.take 0 _
        simp)
    · decide
  exact ⟨hrun, hpath,
    (exit_set_on_traversed_paths exampleAst revertingNodes 6 0 4 _ hrun).2 (occurrencePtr 2 0) hpath⟩

/-- A straight-line block that the loop does pop: if node `N` lies on a path
from the entry to the exit, its block is `Declaration(x)` followed by
`Access(x)`, `x` is storage-located and occurs nowhere else in the graph, some
iteration pops `N` and the pass finishes, then exactly one diagnostic is
reported for `x`, located at that `Access` occurrence. -/
theorem popped_straight_line_block (ast : AST) (g : NodeContainer)
    (fuel functionEntry functionExit N x : Nat) (pre mid post : List VariableOccurrence)
    (decl acc : VariableOccurrence) (ds : List OccurrencePtr)
    (hblock : g.occurrences N = pre ++ decl :: (mid ++ acc :: post))
    (hdecl : decl.kind = Kind.Declaration ∧ decl.declaration = x)
    (hacc : acc.kind = Kind.Access ∧ acc.declaration = x)
    (hs : ast.dataStoredInStorage x = true)
    (hhere : ∀ vo ∈ pre ++ mid ++ post, vo.declaration ≠ x)
    (helse : ∀ n, n ≠ N → ∀ vo ∈ g.occurrences n, vo.declaration ≠ x)
    (hpath : g.reaches functionEntry N ∧ g.reaches N functionExit)
    (htrav : traversed ast g functionEntry N)
    (hfin : checkUnassignedStorageReturnValues ast g fuel functionEntry functionExit = some ds) :
    ds.filter (fun o => decide ((g.deref o).declaration = x))
      = [occurrencePtr N (pre.length + 1 + mid.length)] := by
  obtain ⟨K, hK, hds⟩ := mem_check ast g fuel functionEntry functionExit ds hfin
  have hmid : noKill mid x := fun vo hvo hx =>
    absurd hx (hhere vo (by simp [hvo]))
  have hin := traversed_block_access_reported ast g functionEntry functionExit N x K pre mid post
    decl acc hblock hdecl hacc hs hmid hpath.2 htrav hK
  have hnodup : ds.Nodup := hds ▸ nodup_report ast g functionExit _
  apply eq_singleton_of_nodup _ _ (hnodup.filter _)
  intro o
  rw [List.mem_filter, decide_eq_true_iff]
  constructor
  · rintro ⟨ho, hx⟩
    rw [hds, mem_report] at ho
    obtain ⟨hlt, hkind, _⟩ := flagged_is_storage_access ast g functionEntry K functionExit o ho
    have hget := deref_of_lt g o hlt
    have hN : o.node = N := by
      by_contra hne
      exact helse o.node hne _ (List.getElem?_mem hget) hx
    rw [hN, hblock] at hget
    have hidx : o.index = pre.length + 1 + mid.length := by
      rcases getElem?_append_cons_cases pre _ decl _ _ hget with h1 | ⟨_, h1⟩ | ⟨j, hj, h1⟩
      · exact absurd hx (hhere _ (by simp [h1]))
      · rw [h1, hdecl.1] at hkind
        exact absurd hkind (by decide)
      · rcases getElem?_append_cons_cases mid _ acc _ _ h1 with h2 | ⟨h2, _⟩ | ⟨i, _, h2⟩
        · exact absurd hx (hhere _ (by simp [h2]))
        · omega
        · exact absurd hx (hhere _ (by simp [List.getElem?_mem h2]))
    rw [← occurrencePtr_eta o, hN, hidx]
  · intro ho
    subst ho
    refine ⟨by rw [hds, mem_report]; exact hin, ?_⟩
    rw [deref_occurrencePtr g N _ acc (by rw [hblock]; exact getElem?_block_access _ _ _ _ _)]
    exact hacc.2

/-- On `traversedBlockNodes` node 1 is popped by the second iteration and its
read is the only diagnostic. -/
theorem popped_straight_line_block_example :
    traversedBlockNodes.occurrences 1
      = [] ++ ⟨1, .Declaration, 11⟩ :: ([] ++ ⟨1, .Access, 12⟩ :: []) ∧
    exampleAst.dataStoredInStorage 1 = true ∧
    traversed exampleAst traversedBlockNodes 0 1 ∧
    checkUnassignedStorageReturnValues exampleAst traversedBlockNodes 3 0 2
      = some [occurrencePtr 1 1] ∧
    [occurrencePtr 1 1].filter
      (fun o => decide ((traversedBlockNodes.deref o).declaration = 1))
      = [occurrencePtr 1 1] :=
  ⟨rfl, rfl, ⟨1, by decide⟩, by decide,
    popped_straight_line_block exampleAst traversedBlockNodes 3 0 2 1 1 [] [] []
      ⟨1, .Declaration, 11⟩ ⟨1, .Access, 12⟩ [occurrencePtr 1 1] rfl ⟨rfl, rfl⟩ ⟨rfl, rfl⟩ rfl
      (by simp)
      (by
        intro n hn vo hvo
        match n, hn, hvo with
        | 0, _, hvo =>
          simp [NodeContainer.occurrences, NodeContainer.node, traversedBlockNodes] at hvo
          rw [hvo]
          decide
        | 1, hn, _ => exact absurd rfl hn
        | 2, _, hvo =>
          simp [NodeContainer.occurrences, NodeContainer.node, traversedBlockNodes] at hvo
        | n + 3, _, hvo =>
          simp [NodeContainer.occurrences, NodeContainer.node, traversedBlockNodes] at hvo
          exact absurd hvo (by simp [default]))
      ⟨Relation.ReflTransGen.single (by decide), Relation.ReflTransGen.single (by decide)⟩
      ⟨1, by decide⟩ (by decide)⟩

/-! ## C1: the exit set and the reads that are unsafe on some path -/

theorem lateDeclaration_not_unsafe (entryExits : List Nat) :
    ¬ unsafeOnSomePath exampleAst (lateDeclarationNodes entryExits) 0 4 (occurrencePtr 3 0) := by
  rintro ⟨before, after, acc, hchain, -, -, hget, -, -, pre, mid, decl, hread, hkind, hdecl, -⟩
  have hacc : acc = ⟨5, .Access, 12⟩ := by
    have : ((lateDeclarationNodes entryExits).occurrences (occurrencePtr 3 0).node)[
        (occurrencePtr 3 0).index]? = some ⟨5, .Access, 12⟩ := rfl
    rw [this] at hget
    exact (Option.some.inj hget).symm
  subst hacc
  have hmem : decl ∈ before.flatMap (lateDeclarationNodes entryExits).occurrences := by
    have h0 : List.take (occurrencePtr 3 0).index
        ((lateDeclarationNodes entryExits).occurrences (occurrencePtr 3 0).node) = [] := rfl
    rw [h0, List.append_nil] at hread
    rw [hread]
    simp
  obtain ⟨n, hn, hdn⟩ := List.mem_flatMap.mp hmem
  have hn3 : n = 3 := by
    match n, hdn with
    | 0, hdn =>
      simp [NodeContainer.occurrences, NodeContainer.node, lateDeclarationNodes] at hdn
      rw [hdn] at hdecl
      simp at hdecl
    | 1, hdn =>
      simp [NodeContainer.occurrences, NodeContainer.node, lateDeclarationNodes] at hdn
      rw [hdn] at hdecl
      simp at hdecl
    | 2, hdn =>
      simp [NodeContainer.occurrences, NodeContainer.node, lateDeclarationNodes] at hdn
    | 3, _ => rfl
    | 4, hdn =>
      simp [NodeContainer.occurrences, NodeContainer.node, lateDeclarationNodes] at hdn
    | n + 5, hdn =>
      simp [NodeContainer.occurrences, NodeContainer.node, lateDeclarationNodes] at hdn
      exact absurd hdn (by simp [default])
  subst hn3
  obtain ⟨s, t, rfl⟩ := List.append_of_mem hn
  have hnode : (occurrencePtr 3 0).node = 3 := rfl
  rw [hnode, List.append_assoc] at hchain
  have h3 := hchain.right_of_append
  cases t with
  | nil =>
    simp only [List.cons_append, List.nil_append, List.chain'_cons] at h3
    exact absurd h3.1 (by
      show ¬ 3 ∈ [4]
      decide)
  | cons c t =>
    simp only [List.cons_append, List.chain'_cons] at h3
    have hc : c = 4 := by
      have : c ∈ [4] := h3.1
      simpa using this
    subst hc
    cases t with
    | nil =>
      simp only [List.nil_append, List.chain'_cons] at h3
      exact absurd h3.2.1 (by
        show ¬ 3 ∈ []
        simp)
    | cons d t =>
      simp only [List.cons_append, List.chain'_cons] at h3
      exact absurd h3.2.1 (by
        show ¬ d ∈ []
        simp)

/-- C1, the code at the failing inputs.  On `skippedBlockNodes`, whose entry
block is empty, and on `assignedEntryNodes`, whose entry block declares and
assigns another variable, the pass finishes after popping the entry node only
and leaves `unassignedAccess[exit]` empty, although the read at position 1 of
node 1 is unsafe on the path 0, 1, 2.  On `lateDeclarationNodes [1, 2]` the
pass finishes with the read at position 0 of node 3 in
`unassignedAccess[exit]`, although on no path a declaration of the variable
comes before that read. -/
theorem exit_set_is_not_the_unsafe_reads :
    ((∀ fuel, checkUnassignedStorageReturnValues exampleAst skippedBlockNodes (fuel + 1) 0 2
        = some []) ∧
      (iterations exampleAst skippedBlockNodes 0 1).nodesToTraverse = [] ∧
      (iterations exampleAst skippedBlockNodes 0 1).unassignedAccess 2 = ∅ ∧
      unsafeOnSomePath exampleAst skippedBlockNodes 0 2 (occurrencePtr 1 1)) ∧
    ((∀ fuel, checkUnassignedStorageReturnValues exampleAst assignedEntryNodes (fuel + 1) 0 2
        = some []) ∧
      (iterations exampleAst assignedEntryNodes 0 1).nodesToTraverse = [] ∧
      (iterations exampleAst assignedEntryNodes 0 1).unassignedAccess 2 = ∅ ∧
      unsafeOnSomePath exampleAst assignedEntryNodes 0 2 (occurrencePtr 1 1)) ∧
    ((∀ fuel, checkUnassignedStorageReturnValues exampleAst (lateDeclarationNodes [1, 2])
        (fuel + 8) 0 4 = some [occurrencePtr 3 0]) ∧
      (iterations exampleAst (lateDeclarationNodes [1, 2]) 0 8).nodesToTraverse = [] ∧
      occurrencePtr 3 0 ∈
        (iterations exampleAst (lateDeclarationNodes [1, 2]) 0 8).unassignedAccess 4 ∧
      ¬ unsafeOnSomePath exampleAst (lateDeclarationNodes [1, 2]) 0 4 (occurrencePtr 3 0)) := by
  refine ⟨⟨fun fuel => ?_, by decide, by decide, ?_⟩,
    ⟨fun fuel => ?_, by decide, by decide, ?_⟩,
    ⟨fun fuel => ?_, by decide, by decide, lateDeclaration_not_unsafe [1, 2]⟩⟩
  · rw [check_of_empty_at exampleAst skippedBlockNodes (fuel + 1) 1 0 2 (by decide) (by omega)]
    decide
  · refine ⟨[0], [2], ⟨1, .Access, 11⟩, ?_, rfl, rfl, rfl, rfl, rfl,
      [], [], ⟨1, .Declaration, 10⟩, rfl, rfl, rfl, ?_⟩
    · simp only [List.singleton_append, List.chain'_cons, List.chain'_singleton, and_true]
      exact ⟨by decide, by decide⟩
    · intro vo hvo
      exact absurd hvo (List.not_mem_nil vo)
  · rw [check_of_empty_at exampleAst assignedEntryNodes (fuel + 1) 1 0 2 (by decide) (by omega)]
    decide
  · refine ⟨[0], [2], ⟨2, .Access, 13⟩, ?_, rfl, rfl, rfl, rfl, rfl,
      [⟨1, .Declaration, 10⟩, ⟨1, .Assignment, 11⟩], [], ⟨2, .Declaration, 12⟩, rfl, rfl, rfl, ?_⟩
    · simp only [List.singleton_append, List.chain'_cons, List.chain'_singleton, and_true]
      exact ⟨by decide, by decide⟩
    · intro vo hvo
      exact absurd hvo (List.not_mem_nil vo)
  · rw [check_of_empty_at exampleAst (lateDeclarationNodes [1, 2]) (fuel + 8) 8 0 4 (by decide)
      (by omega)]
    decide

/-! ## C2: termination of the worklist loop -/

theorem loopHead_step (ast : AST) (s : State) (h : loopHead s) :
    loopTail (step ast loopNodes s) := by
  obtain ⟨h0, h1, h2, h3, h4, h5, h6⟩ := h
  have hocc : loopNodes.occurrences 1 = [⟨2, .Assignment, 12⟩] := rfl
  have hex : loopNodes.exits 1 = [2] := rfl
  simp only [loopTail, step, h0, visitNode, hocc, hex, transferFrom, transferOccurrence,
    List.foldl_cons, List.foldl_nil, propagate, setAt, h1, h2, h3, h4, h5, h6]
  simp
  decide

theorem loopTail_step (ast : AST) (s : State) (h : loopTail s) :
    loopHead (step ast loopNodes s) := by
  obtain ⟨h0, h1, h2, h3, h4, h5, h6⟩ := h
  have hocc : loopNodes.occurrences 2 = [⟨1, .Assignment, 13⟩] := rfl
  have hex : loopNodes.exits 2 = [1, 3] := rfl
  simp only [loopHead, step, h0, visitNode, hocc, hex, transferFrom, transferOccurrence,
    List.foldl_cons, List.foldl_nil, propagate, setAt, h1, h2, h3, h4, h5, h6]
  simp
  decide

theorem loopNodes_cycle (j : Nat) :
    loopHead ((step exampleAst loopNodes)^[3 + 2 * j] (initialState 0)) := by
  induction j with
  | zero =>
    unfold loopHead
    decide
  | succ j ih =>
    have : 3 + 2 * (j + 1) = (3 + 2 * j) + 1 + 1 := by ring
    rw [this, Function.iterate_succ_apply', Function.iterate_succ_apply']
    exact loopTail_step exampleAst _ (loopHead_step exampleAst _ ih)

theorem loopNodes_stack_nonempty (k : Nat) :
    ((step exampleAst loopNodes)^[k] (initialState 0)).nodesToTraverse ≠ [] := by
  by_cases hk : k < 3
  · interval_cases k <;> decide
  · obtain ⟨j, hj | hj⟩ : ∃ j, k = 3 + 2 * j ∨ k = (3 + 2 * j) + 1 :=
      ⟨(k - 3) / 2, by omega⟩
    · rw [hj, (loopNodes_cycle j).1]
      exact List.cons_ne_nil _ _
    · rw [hj, Function.iterate_succ_apply',
        (loopHead_step exampleAst _ (loopNodes_cycle j)).1]
      exact List.cons_ne_nil _ _

/-- C2, the code at the failing input: on the four-node graph `loopNodes` the
worklist never becomes empty; whatever the iteration budget, the pass has not
finished. -/
theorem worklist_diverges_on_loop :
    (∀ k, (iterations exampleAst loopNodes 0 k).nodesToTraverse ≠ []) ∧
    (∀ fuel, checkUnassignedStorageReturnValues exampleAst loopNodes fuel 0 3 = none) := by
  refine ⟨fun k => ?_, fun fuel => ?_⟩
  · rw [iterations_eq_iterate]
    exact loopNodes_stack_nonempty k
  · unfold checkUnassignedStorageReturnValues
    rw [worklist_none exampleAst loopNodes fuel _ (fun k _ => loopNodes_stack_nonempty k)]
    rfl

/-! ## C3: a straight-line block on a path to the exit -/

/-- C3, the code at the failing input: node 1 of `branchBlockNodes` lies on
the path 0, 1, 2 from entry to exit and its block is `Declaration(x)`,
`Access(x)` with `x` storage-located and occurring nowhere else, yet the pass
finishes, with any budget of at least one iteration, without any diagnostic;
the same holds for node 1 of `assignedEntryNodes`, whose entry block declares
and assigns another variable. -/
theorem straight_line_block_not_flagged :
    branchBlockNodes.reaches 0 1 ∧ branchBlockNodes.reaches 1 2 ∧
    branchBlockNodes.occurrences 1 = [⟨1, .Declaration, 12⟩, ⟨1, .Access, 13⟩] ∧
    exampleAst.dataStoredInStorage 1 = true ∧
    (∀ n vo, vo ∈ branchBlockNodes.occurrences n → vo.declaration = 1 → n = 1) ∧
    (∀ fuel, checkUnassignedStorageReturnValues exampleAst branchBlockNodes (fuel + 1) 0 2
      = some []) ∧
    assignedEntryNodes.reaches 0 1 ∧ assignedEntryNodes.reaches 1 2 ∧
    assignedEntryNodes.occurrences 1 = [⟨2, .Declaration, 12⟩, ⟨2, .Access, 13⟩] ∧
    exampleAst.dataStoredInStorage 2 = true ∧
    (∀ n vo, vo ∈ assignedEntryNodes.occurrences n → vo.declaration = 2 → n = 1) ∧
    (∀ fuel, checkUnassignedStorageReturnValues exampleAst assignedEntryNodes (fuel + 1) 0 2
      = some []) := by
  refine ⟨Relation.ReflTransGen.single (by decide), Relation.ReflTransGen.single (by decide),
    rfl, rfl, ?_, fun fuel => ?_,
    Relation.ReflTransGen.single (by decide), Relation.ReflTransGen.single (by decide),
    rfl, rfl, ?_, fun fuel => ?_⟩
  · intro n vo hvo hd
    match n, hvo with
    | 0, hvo => simp [NodeContainer.occurrences, NodeContainer.node, branchBlockNodes] at hvo
    | 1, _ => rfl
    | 2, hvo => simp [NodeContainer.occurrences, NodeContainer.node, branchBlockNodes] at hvo
    | 3, hvo => simp [NodeContainer.occurrences, NodeContainer.node, branchBlockNodes] at hvo
    | n + 4, hvo =>
      simp [NodeContainer.occurrences, NodeContainer.node, branchBlockNodes] at hvo
      exact absurd hvo (by simp [default])
  · rw [check_of_empty_at exampleAst branchBlockNodes (fuel + 1) 1 0 2 (by decide) (by omega)]
    decide
  · intro n vo hvo hd
    match n, hvo with
    | 0, hvo =>
      have h0 : vo ∈ [(⟨1, .Declaration, 10⟩ : VariableOccurrence), ⟨1, .Assignment, 11⟩] := hvo
      simp only [List.mem_cons, List.mem_singleton, List.not_mem_nil, or_false] at h0
      rcases h0 with h | h <;> rw [h] at hd <;> exact absurd hd (by decide)
    | 1, _ => rfl
    | 2, hvo =>
      have h0 : vo ∈ ([] : List VariableOccurrence) := hvo
      simp at h0
    | n + 3, hvo =>
      have h0 : vo ∈ ([] : List VariableOccurrence) := hvo
      simp at h0
  · rw [check_of_empty_at exampleAst assignedEntryNodes (fuel + 1) 1 0 2 (by decide) (by omega)]
    decide

/-! ## C4: the join on the diamond -/

theorem diamond_visit_entry (ast : AST) (x : Nat) (entryExits : List Nat)
    (blockB : List VariableOccurrence) (declAt assignAt accessAt : Nat)
    (hexits : entryExits = [1, 2] ∨ entryExits = [2, 1]) :
    diamondSnapshot
      (step ast (diamondNodes x entryExits blockB declAt assignAt accessAt) (initialState 0))
      entryExits.reverse {x} {x} ∅ ∅ ∅ ∅ ∅ ∅ := by
  have hocc : (diamondNodes x entryExits blockB declAt assignAt accessAt).occurrences 0
      = [⟨x, .Declaration, declAt⟩] := rfl
  have hex : (diamondNodes x entryExits blockB declAt assignAt accessAt).exits 0
      = entryExits := rfl
  rcases hexits with h | h <;> subst h <;>
    simp [diamondSnapshot, step, initialState, visitNode, hocc, hex, transferFrom,
      transferOccurrence, propagate, setAt]

theorem diamond_visit_A (ast : AST) (x : Nat) (entryExits : List Nat)
    (blockB : List VariableOccurrence) (declAt assignAt accessAt : Nat)
    (s : State) (rest : List Nat) (u2 u3 u4 : Finset Nat)
    (a2 a3 a4 : Finset OccurrencePtr)
    (h : diamondSnapshot s (1 :: rest) {x} u2 u3 u4 ∅ a2 a3 a4) :
    diamondSnapshot (step ast (diamondNodes x entryExits blockB declAt assignAt accessAt) s)
      rest ∅ u2 u3 u4 ∅ a2 a3 a4 := by
  obtain ⟨h0, h1, h2, h3, h4, h5, h6, h7, h8⟩ := h
  have hocc : (diamondNodes x entryExits blockB declAt assignAt accessAt).occurrences 1
      = [⟨x, .Assignment, assignAt⟩] := rfl
  have hex : (diamondNodes x entryExits blockB declAt assignAt accessAt).exits 1 = [3] := rfl
  simp [diamondSnapshot, step, h0, visitNode, hocc, hex, transferFrom, transferOccurrence,
    propagate, setAt, h1, h2, h3, h4, h5, h6, h7, h8]

theorem diamond_visit_B (ast : AST) (x : Nat) (entryExits : List Nat)
    (blockB : List VariableOccurrence) (declAt assignAt accessAt : Nat)
    (s : State) (rest : List Nat) (u1 u4 : Finset Nat)
    (a1 a4 : Finset OccurrencePtr)
    (hx : x ∈ (transferFrom ast 2 0 blockB ({x}, ∅)).1)
    (h : diamondSnapshot s (2 :: rest) u1 {x} ∅ u4 a1 ∅ ∅ a4) :
    diamondSnapshot (step ast (diamondNodes x entryExits blockB declAt assignAt accessAt) s)
      (3 :: rest) u1 (transferFrom ast 2 0 blockB ({x}, ∅)).1
      (transferFrom ast 2 0 blockB ({x}, ∅)).1 u4 a1
      (transferFrom ast 2 0 blockB ({x}, ∅)).2 (transferFrom ast 2 0 blockB ({x}, ∅)).2 a4 := by
  obtain ⟨h0, h1, h2, h3, h4, h5, h6, h7, h8⟩ := h
  have hocc : (diamondNodes x entryExits blockB declAt assignAt accessAt).occurrences 2
      = blockB := rfl
  have hex : (diamondNodes x entryExits blockB declAt assignAt accessAt).exits 2 = [3] := rfl
  have hpos : 0 < (transferFrom ast 2 0 blockB ({x}, ∅)).1.card := Finset.card_pos.mpr ⟨x, hx⟩
  simp [diamondSnapshot, step, h0, visitNode, hocc, hex, propagate, setAt, h1, h2, h3, h4, h5,
    h6, h7, h8, hpos]

theorem diamond_visit_M (ast : AST) (x : Nat) (entryExits : List Nat)
    (blockB : List VariableOccurrence) (declAt assignAt accessAt : Nat)
    (s : State) (rest : List Nat) (u1 u2 u3 : Finset Nat)
    (a1 a2 a3 : Finset OccurrencePtr) (hs : ast.dataStoredInStorage x = true) (hx : x ∈ u3)
    (h : diamondSnapshot s (3 :: rest) u1 u2 u3 ∅ a1 a2 a3 ∅) :
    diamondSnapshot (step ast (diamondNodes x entryExits blockB declAt assignAt accessAt) s)
      (4 :: rest) u1 u2 u3 u3 a1 a2 (insert (occurrencePtr 3 0) a3)
      (insert (occurrencePtr 3 0) a3) := by
  obtain ⟨h0, h1, h2, h3, h4, h5, h6, h7, h8⟩ := h
  have hocc : (diamondNodes x entryExits blockB declAt assignAt accessAt).occurrences 3
      = [⟨x, .Access, accessAt⟩] := rfl
  have hex : (diamondNodes x entryExits blockB declAt assignAt accessAt).exits 3 = [4] := rfl
  have hpos : 0 < u3.card := Finset.card_pos.mpr ⟨x, hx⟩
  simp [diamondSnapshot, step, h0, visitNode, hocc, hex, transferFrom, transferOccurrence,
    propagate, setAt, h1, h2, h3, h4, h5, h6, h7, h8, hpos, hs, hx]

theorem diamond_visit_exit (ast : AST) (x : Nat) (entryExits : List Nat)
    (blockB : List VariableOccurrence) (declAt assignAt accessAt : Nat)
    (s : State) (rest : List Nat) (u1 u2 u3 u4 : Finset Nat)
    (a1 a2 a3 a4 : Finset OccurrencePtr)
    (h : diamondSnapshot s (4 :: rest) u1 u2 u3 u4 a1 a2 a3 a4) :
    diamondSnapshot (step ast (diamondNodes x entryExits blockB declAt assignAt accessAt) s)
      rest u1 u2 u3 u4 a1 a2 a3 a4 := by
  obtain ⟨h0, h1, h2, h3, h4, h5, h6, h7, h8⟩ := h
  have hocc : (diamondNodes x entryExits blockB declAt assignAt accessAt).occurrences 4
      = [] := rfl
  have hex : (diamondNodes x entryExits blockB declAt assignAt accessAt).exits 4 = [] := rfl
  simp [diamondSnapshot, step, h0, visitNode, hocc, hex, transferFrom, setAt,
    h1, h2, h3, h4, h5, h6, h7, h8]

/-- The worklist loop on the diamond empties the stack in five iterations and
leaves in the exit's set the access at `M` and what `B`'s own block flagged. -/
theorem diamond_final (ast : AST) (x : Nat) (entryExits : List Nat)
    (blockB : List VariableOccurrence) (declAt assignAt accessAt : Nat)
    (hs : ast.dataStoredInStorage x = true)
    (hexits : entryExits = [1, 2] ∨ entryExits = [2, 1])
    (hB : ∀ vo ∈ blockB, vo.declaration ≠ x) :
    ((step ast (diamondNodes x entryExits blockB declAt assignAt accessAt))^[5]
        (initialState 0)).nodesToTraverse = [] ∧
    ((step ast (diamondNodes x entryExits blockB declAt assignAt accessAt))^[5]
        (initialState 0)).unassignedAccess 4
      = insert (occurrencePtr 3 0) (transferFrom ast 2 0 blockB ({x}, ∅)).2 := by
  have hx : x ∈ (transferFrom ast 2 0 blockB ({x}, ∅)).1 :=
    mem_transferFrom_fst ast 2 x blockB 0 _ (Finset.mem_singleton_self x) hB
  have e1 := diamond_visit_entry ast x entryExits blockB declAt assignAt accessAt hexits
  simp only [Function.iterate_succ_apply', Function.iterate_zero, id_eq]
  rcases hexits with h | h <;> subst h
  · have e2 := diamond_visit_B ast x [1, 2] blockB declAt assignAt accessAt _ _ _ _ _ _ hx e1
    have e3 := diamond_visit_M ast x [1, 2] blockB declAt assignAt accessAt _ _ _ _ _ _ _ _
      hs hx e2
    have e4 := diamond_visit_exit ast x [1, 2] blockB declAt assignAt accessAt _ _ _ _ _ _ _ _
      _ _ e3
    have e5 := diamond_visit_A ast x [1, 2] blockB declAt assignAt accessAt _ _ _ _ _ _ _ _ e4
    exact ⟨e5.1, e5.2.2.2.2.2.2.2.2⟩
  · have e2 := diamond_visit_A ast x [2, 1] blockB declAt assignAt accessAt _ _ _ _ _ _ _ _ e1
    have e3 := diamond_visit_B ast x [2, 1] blockB declAt assignAt accessAt _ _ _ _ _ _ hx e2
    have e4 := diamond_visit_M ast x [2, 1] blockB declAt assignAt accessAt _ _ _ _ _ _ _ _
      hs hx e3
    have e5 := diamond_visit_exit ast x [2, 1] blockB declAt assignAt accessAt _ _ _ _ _ _ _ _
      _ _ e4
    exact ⟨e5.1, e5.2.2.2.2.2.2.2.2⟩

/-- C4, as amended (join on the diamond): with `x` storage-located, either
order of the entry's exits and any block of `B` without an occurrence of `x`,
the pass finishes and reports exactly one diagnostic for `x`, located at the
`Access(x)` of `M`; every other diagnostic is located in `B`'s block, and when
`B`'s block holds no `Access` occurrence the diagnostic at `M` is the only one. -/
theorem join_on_diamond (ast : AST) (x : Nat) (entryExits : List Nat)
    (blockB : List VariableOccurrence) (declAt assignAt accessAt fuel : Nat)
    (hs : ast.dataStoredInStorage x = true)
    (hexits : entryExits = [1, 2] ∨ entryExits = [2, 1])
    (hB : ∀ vo ∈ blockB, vo.declaration ≠ x) (hfuel : 5 ≤ fuel) :
    ∃ ds, checkUnassignedStorageReturnValues ast
        (diamondNodes x entryExits blockB declAt assignAt accessAt) fuel 0 4 = some ds ∧
      ds.filter (fun o => decide (((diamondNodes x entryExits blockB declAt assignAt
        accessAt).deref o).declaration = x)) = [occurrencePtr 3 0] ∧
      (∀ o ∈ ds, o = occurrencePtr 3 0 ∨ o.node = 2) ∧
      ((∀ vo ∈ blockB, vo.kind ≠ Kind.Access) → ds = [occurrencePtr 3 0]) := by
  obtain ⟨hstack, hfinal⟩ := diamond_final ast x entryExits blockB declAt assignAt accessAt
    hs hexits hB
  have hrun := worklist_of_empty_at ast
    (diamondNodes x entryExits blockB declAt assignAt accessAt) fuel 5 _ hstack hfuel
  have hmem : ∀ o, o ∈ report ast (diamondNodes x entryExits blockB declAt assignAt accessAt) 4
      ((step ast (diamondNodes x entryExits blockB declAt assignAt accessAt))^[5]
        (initialState 0)) ↔
      o = occurrencePtr 3 0 ∨ o ∈ (transferFrom ast 2 0 blockB ({x}, ∅)).2 := by
    intro o
    rw [mem_report, hfinal, Finset.mem_insert]
  have hBmem : ∀ o, o ∈ (transferFrom ast 2 0 blockB ({x}, ∅)).2 →
      ∃ k vo, blockB[k]? = some vo ∧ o = occurrencePtr 2 k ∧ vo.kind = Kind.Access := by
    intro o ho
    rcases mem_transferFrom_snd ast 2 blockB 0 _ o ho with h1 | ⟨k, vo, hk, hok, hkind, _⟩
    · simp at h1
    · exact ⟨k, vo, hk, by rw [hok, Nat.zero_add], hkind⟩
  have hnodup := nodup_report ast (diamondNodes x entryExits blockB declAt assignAt accessAt) 4
    ((step ast (diamondNodes x entryExits blockB declAt assignAt accessAt))^[5] (initialState 0))
  refine ⟨_, by unfold checkUnassignedStorageReturnValues; rw [hrun]; rfl, ?_, ?_, ?_⟩
  · apply eq_singleton_of_nodup _ _ (hnodup.filter _)
    intro o
    rw [List.mem_filter, hmem, decide_eq_true_iff]
    constructor
    · rintro ⟨h1 | h1, h2⟩
      · exact h1
      · obtain ⟨k, vo, hk, hok, _⟩ := hBmem o h1
        subst hok
        have hd : (diamondNodes x entryExits blockB declAt assignAt accessAt).deref
            (occurrencePtr 2 k) = vo := deref_occurrencePtr _ 2 k vo hk
        rw [hd] at h2
        exact absurd h2 (hB vo (List.getElem?_mem hk))
    · intro h1
      subst h1
      exact ⟨Or.inl rfl, rfl⟩
  · intro o ho
    rcases (hmem o).mp ho with h1 | h1
    · exact Or.inl h1
    · obtain ⟨k, vo, _, hok, _⟩ := hBmem o h1
      subst hok
      exact Or.inr rfl
  · intro hno
    apply eq_singleton_of_nodup _ _ hnodup
    intro o
    rw [hmem]
    constructor
    · rintro (h1 | h1)
      · exact h1
      · obtain ⟨k, vo, hk, _, hkind⟩ := hBmem o h1
        exact absurd hkind (hno vo (List.getElem?_mem hk))
    · exact Or.inl

/-- C4, as amended, on the diamond whose block `B` declares and reads `y`. -/
theorem join_on_diamond_witness :
    exampleAst.dataStoredInStorage 1 = true ∧
    (∀ vo ∈ [(⟨2, .Declaration, 13⟩ : VariableOccurrence), ⟨2, .Access, 14⟩],
      vo.declaration ≠ 1) ∧
    ∃ ds, checkUnassignedStorageReturnValues exampleAst
        (diamondNodes 1 [1, 2] [⟨2, .Declaration, 13⟩, ⟨2, .Access, 14⟩] 10 11 12) 5 0 4
          = some ds ∧
      ds.filter (fun o => decide (((diamondNodes 1 [1, 2]
        [⟨2, .Declaration, 13⟩, ⟨2, .Access, 14⟩] 10 11 12).deref o).declaration = 1))
          = [occurrencePtr 3 0] ∧
      (∀ o ∈ ds, o = occurrencePtr 3 0 ∨ o.node = 2) ∧
      ((∀ vo ∈ [(⟨2, .Declaration, 13⟩ : VariableOccurrence), ⟨2, .Access, 14⟩],
        vo.kind ≠ Kind.Access) → ds = [occurrencePtr 3 0]) :=
  ⟨by decide, by decide,
    join_on_diamond exampleAst 1 [1, 2] [⟨2, .Declaration, 13⟩, ⟨2, .Access, 14⟩] 10 11 12 5
      (by decide) (Or.inl rfl) (by decide) (le_refl 5)⟩

/-- C4, counterexample: on the diamond whose block `B` is
`Declaration(y), Access(y)` with `y` storage-located (no occurrence of `x`),
the pass reports two diagnostics, not exactly one. -/
theorem join_on_diamond_two_diagnostics :
    (∀ vo ∈ [(⟨2, .Declaration, 13⟩ : VariableOccurrence), ⟨2, .Access, 14⟩],
      vo.declaration ≠ 1) ∧
    checkUnassignedStorageReturnValues exampleAst
      (diamondNodes 1 [1, 2] [⟨2, .Declaration, 13⟩, ⟨2, .Access, 14⟩] 10 11 12) 5 0 4
        = some [occurrencePtr 3 0, occurrencePtr 2 1] ∧
    ¬ ∃ o, checkUnassignedStorageReturnValues exampleAst
      (diamondNodes 1 [1, 2] [⟨2, .Declaration, 13⟩, ⟨2, .Access, 14⟩] 10 11 12) 5 0 4
        = some [o] := by
  refine ⟨by decide, by decide, ?_⟩
  rintro ⟨o, ho⟩
  have h2 : checkUnassignedStorageReturnValues exampleAst
      (diamondNodes 1 [1, 2] [⟨2, .Declaration, 13⟩, ⟨2, .Access, 14⟩] 10 11 12) 5 0 4
        = some [occurrencePtr 3 0, occurrencePtr 2 1] := by decide
  rw [h2] at ho
  simp at ho

/-! ## C5 and C6: accesses after an assignment or an inline assembly reference -/

/-- An access that follows a kill (`Assignment` or `InlineAssembly`) of the
same variable in its own block, with no `Declaration` of it in between, is not
inserted by the block's transfer. -/
theorem killed_access_local (ast : AST) (g : NodeContainer) (n x : Nat)
    (pre mid post : List VariableOccurrence) (kill acc : VariableOccurrence)
    (hblock : g.occurrences n = pre ++ kill :: (mid ++ acc :: post))
    (hkill : (kill.kind = Kind.Assignment ∨ kill.kind = Kind.InlineAssembly) ∧ kill.declaration = x)
    (hacc : acc.declaration = x)
    (hmid : ∀ vo ∈ mid, ¬ (vo.kind = Kind.Declaration ∧ vo.declaration = x))
    (n1 : Nat) (S : Finset Nat) (A : Finset OccurrencePtr)
    (hA : occurrencePtr n (pre.length + 1 + mid.length) ∉ A) :
    occurrencePtr n (pre.length + 1 + mid.length) ∉
      (transferFrom ast n1 0 (g.occurrences n1) (S, A)).2 := by
  intro h
  rcases mem_transferFrom_snd ast n1 _ 0 _ _ h with h1 | ⟨k, vo, hk, ho, _, _, hmem⟩
  · exact hA h1
  · obtain ⟨hn, hi⟩ := occurrencePtr_inj ho
    subst hn
    have hk0 : k = pre.length + 1 + mid.length := by omega
    subst hk0
    have htake : (g.occurrences n).take (pre.length + 1 + mid.length) = pre ++ kill :: mid := by
      rw [hblock]
      have : pre ++ kill :: (mid ++ acc :: post) = (pre ++ kill :: mid) ++ acc :: post := by simp
      rw [this]
      exact List.take_left' (by simp; omega)
    have hget : (g.occurrences n)[pre.length + 1 + mid.length]? = some acc := by
      rw [hblock]
      have : pre ++ kill :: (mid ++ acc :: post) = (pre ++ kill :: mid) ++ acc :: post := by simp
      rw [this, List.getElem?_append_right (by simp; omega)]
      simp
      have : pre.length + 1 + mid.length - (pre.length + (mid.length + 1)) = 0 := by omega
      rw [this]
      simp
    rw [hget] at hk
    cases hk
    rw [htake, transferFrom_append] at hmem
    simp only [transferFrom] at hmem
    refine not_mem_transferFrom_fst ast n x mid _ _ ?_ hmid (hacc ▸ hmem)
    unfold transferOccurrence
    rcases hkill with ⟨hk1 | hk1, hd⟩ <;> simp [hk1, hd]

theorem killed_access_never_flagged (ast : AST) (g : NodeContainer) (n x : Nat)
    (pre mid post : List VariableOccurrence) (kill acc : VariableOccurrence)
    (hblock : g.occurrences n = pre ++ kill :: (mid ++ acc :: post))
    (hkill : (kill.kind = Kind.Assignment ∨ kill.kind = Kind.InlineAssembly) ∧ kill.declaration = x)
    (hacc : acc.declaration = x)
    (hmid : ∀ vo ∈ mid, ¬ (vo.kind = Kind.Declaration ∧ vo.declaration = x))
    (functionEntry : Nat) (k m : Nat) :
    occurrencePtr n (pre.length + 1 + mid.length) ∉
      (iterations ast g functionEntry k).unassignedAccess m := by
  intro h
  exact iterations_access ast g (fun _ o => o ≠ occurrencePtr n (pre.length + 1 + mid.length))
    (fun _ _ _ _ h1 => h1)
    (fun n1 S A o hA ho heq =>
      killed_access_local ast g n x pre mid post kill acc hblock hkill hacc hmid n1 S A
        (fun hin => hA _ hin rfl) (heq ▸ ho))
    functionEntry k m _ h rfl

theorem killed_access_never_reported (ast : AST) (g : NodeContainer) (n x : Nat)
    (pre mid post : List VariableOccurrence) (kill acc : VariableOccurrence)
    (hblock : g.occurrences n = pre ++ kill :: (mid ++ acc :: post))
    (hkill : (kill.kind = Kind.Assignment ∨ kill.kind = Kind.InlineAssembly) ∧ kill.declaration = x)
    (hacc : acc.declaration = x)
    (hmid : ∀ vo ∈ mid, ¬ (vo.kind = Kind.Declaration ∧ vo.declaration = x))
    (fuel functionEntry functionExit : Nat) (ds : List OccurrencePtr)
    (h : checkUnassignedStorageReturnValues ast g fuel functionEntry functionExit = some ds) :
    occurrencePtr n (pre.length + 1 + mid.length) ∉ ds := by
  obtain ⟨k, _, hds⟩ := mem_check ast g fuel functionEntry functionExit ds h
  rw [hds, mem_report]
  exact killed_access_never_flagged ast g n x pre mid post kill acc hblock hkill hacc hmid _ _ _

/-- C5 (no false positive after assignment): an `Access(x)` occurrence that is
preceded in its own block by an `Assignment(x)`, with no `Declaration(x)`
between the two, is never a member of any `unassignedAccess` set, is never
reported by a pass that finishes, and is not inserted by the block's transfer
whatever sets reach the node. -/
theorem no_false_positive_after_assignment (ast : AST) (g : NodeContainer) (n x : Nat)
    (pre mid post : List VariableOccurrence) (asg acc : VariableOccurrence)
    (hblock : g.occurrences n = pre ++ asg :: (mid ++ acc :: post))
    (hasg : asg.kind = Kind.Assignment ∧ asg.declaration = x)
    (hacc : acc.kind = Kind.Access ∧ acc.declaration = x)
    (hmid : ∀ vo ∈ mid, ¬ (vo.kind = Kind.Declaration ∧ vo.declaration = x))
    (functionEntry functionExit : Nat) :
    (∀ k m, occurrencePtr n (pre.length + 1 + mid.length) ∉
      (iterations ast g functionEntry k).unassignedAccess m) ∧
    (∀ fuel ds, checkUnassignedStorageReturnValues ast g fuel functionEntry functionExit = some ds →
      occurrencePtr n (pre.length + 1 + mid.length) ∉ ds) ∧
    (∀ S A, occurrencePtr n (pre.length + 1 + mid.length) ∉ A →
      occurrencePtr n (pre.length + 1 + mid.length) ∉
        (transferFrom ast n 0 (g.occurrences n) (S, A)).2) :=
  ⟨fun k m => killed_access_never_flagged ast g n x pre mid post asg acc hblock
      ⟨Or.inl hasg.1, hasg.2⟩ hacc.2 hmid functionEntry k m,
    fun fuel ds h => killed_access_never_reported ast g n x pre mid post asg acc hblock
      ⟨Or.inl hasg.1, hasg.2⟩ hacc.2 hmid fuel functionEntry functionExit ds h,
    fun S A hA => killed_access_local ast g n x pre mid post asg acc hblock
      ⟨Or.inl hasg.1, hasg.2⟩ hacc.2 hmid n S A hA⟩

/-- C5 on the first three occurrences of `killBlockNodes`. -/
theorem no_false_positive_after_assignment_witness :
    killBlockNodes.occurrences 0 = [⟨1, .Declaration, 10⟩] ++ ⟨1, .Assignment, 11⟩ ::
      ([] ++ ⟨1, .Access, 12⟩ :: [⟨2, .Declaration, 13⟩, ⟨2, .InlineAssembly, 14⟩,
        ⟨2, .Access, 15⟩]) ∧
    checkUnassignedStorageReturnValues exampleAst killBlockNodes 2 0 1 = some [] ∧
    occurrencePtr 0 2 ∉ (transferFrom exampleAst 0 0 (killBlockNodes.occurrences 0) ({1}, ∅)).2 :=
  ⟨by rfl, by decide,
    (no_false_positive_after_assignment exampleAst killBlockNodes 0 1 [⟨1, .Declaration, 10⟩] []
      [⟨2, .Declaration, 13⟩, ⟨2, .InlineAssembly, 14⟩, ⟨2, .Access, 15⟩]
      ⟨1, .Assignment, 11⟩ ⟨1, .Access, 12⟩ (by rfl) ⟨rfl, rfl⟩ ⟨rfl, rfl⟩
      (by simp) 0 1).2.2 {1} ∅ (by simp)⟩

/-- C6 (opaque-region clearing): an `Access(x)` occurrence that is preceded in
its own block by an `InlineAssembly(x)` occurrence, with no `Declaration(x)`
between the two, is never a member of any `unassignedAccess` set, is never
reported by a pass that finishes, and is not inserted by the block's transfer
whatever sets reach the node. -/
theorem opaque_region_clearing (ast : AST) (g : NodeContainer) (n x : Nat)
    (pre mid post : List VariableOccurrence) (asm acc : VariableOccurrence)
    (hblock : g.occurrences n = pre ++ asm :: (mid ++ acc :: post))
    (hasm : asm.kind = Kind.InlineAssembly ∧ asm.declaration = x)
    (hacc : acc.kind = Kind.Access ∧ acc.declaration = x)
    (hmid : ∀ vo ∈ mid, ¬ (vo.kind = Kind.Declaration ∧ vo.declaration = x))
    (functionEntry functionExit : Nat) :
    (∀ k m, occurrencePtr n (pre.length + 1 + mid.length) ∉
      (iterations ast g functionEntry k).unassignedAccess m) ∧
    (∀ fuel ds, checkUnassignedStorageReturnValues ast g fuel functionEntry functionExit = some ds →
      occurrencePtr n (pre.length + 1 + mid.length) ∉ ds) ∧
    (∀ S A, occurrencePtr n (pre.length + 1 + mid.length) ∉ A →
      occurrencePtr n (pre.length + 1 + mid.length) ∉
        (transferFrom ast n 0 (g.occurrences n) (S, A)).2) :=
  ⟨fun k m => killed_access_never_flagged ast g n x pre mid post asm acc hblock
      ⟨Or.inr hasm.1, hasm.2⟩ hacc.2 hmid functionEntry k m,
    fun fuel ds h => killed_access_never_reported ast g n x pre mid post asm acc hblock
      ⟨Or.inr hasm.1, hasm.2⟩ hacc.2 hmid fuel functionEntry functionExit ds h,
    fun S A hA => killed_access_local ast g n x pre mid post asm acc hblock
      ⟨Or.inr hasm.1, hasm.2⟩ hacc.2 hmid n S A hA⟩

/-- C6 on the last three occurrences of `killBlockNodes`. -/
theorem opaque_region_clearing_witness :
    killBlockNodes.occurrences 0 = [⟨1, .Declaration, 10⟩, ⟨1, .Assignment, 11⟩,
      ⟨1, .Access, 12⟩, ⟨2, .Declaration, 13⟩] ++ ⟨2, .InlineAssembly, 14⟩ ::
      ([] ++ ⟨2, .Access, 15⟩ :: []) ∧
    checkUnassignedStorageReturnValues exampleAst killBlockNodes 2 0 1 = some [] ∧
    occurrencePtr 0 5 ∉ (transferFrom exampleAst 0 0 (killBlockNodes.occurrences 0) ({2}, ∅)).2 :=
  ⟨by rfl, by decide,
    (opaque_region_clearing exampleAst killBlockNodes 0 2
      [⟨1, .Declaration, 10⟩, ⟨1, .Assignment, 11⟩, ⟨1, .Access, 12⟩, ⟨2, .Declaration, 13⟩] [] []
      ⟨2, .InlineAssembly, 14⟩ ⟨2, .Access, 15⟩ (by rfl) ⟨rfl, rfl⟩ ⟨rfl, rfl⟩
      (by simp) 0 1).2.2 {2} ∅ (by simp)⟩

/-! ## C7: only storage-located accesses are reported -/

/-- C7 (non-storage exemption): every member of every `unassignedAccess` set
of every iteration, and so every occurrence that a finished pass reports, is
an `Access` occurrence of the graph whose declaration is storage-located; an
occurrence whose declaration is not storage-located is never reported. -/
theorem non_storage_exemption (ast : AST) (g : NodeContainer)
    (functionEntry functionExit : Nat) :
    (∀ k m, ∀ o ∈ (iterations ast g functionEntry k).unassignedAccess m,
      o.index < (g.occurrences o.node).length ∧ (g.deref o).kind = Kind.Access ∧
      ast.dataStoredInStorage (g.deref o).declaration = true) ∧
    (∀ fuel ds,
      checkUnassignedStorageReturnValues ast g fuel functionEntry functionExit = some ds →
      (∀ o ∈ ds, o.index < (g.occurrences o.node).length ∧ (g.deref o).kind = Kind.Access ∧
        ast.dataStoredInStorage (g.deref o).declaration = true) ∧
      (∀ o, ast.dataStoredInStorage (g.deref o).declaration = false → o ∉ ds)) := by
  refine ⟨fun k m o ho => flagged_is_storage_access ast g functionEntry k m o ho,
    fun fuel ds h => ?_⟩
  obtain ⟨k, _, hds⟩ := mem_check ast g fuel functionEntry functionExit ds h
  have key : ∀ o ∈ ds, o.index < (g.occurrences o.node).length ∧ (g.deref o).kind = Kind.Access ∧
      ast.dataStoredInStorage (g.deref o).declaration = true := by
    intro o ho
    rw [hds, mem_report] at ho
    exact flagged_is_storage_access ast g functionEntry k functionExit o ho
  refine ⟨key, fun o hns ho => ?_⟩
  have := (key o ho).2.2
  rw [hns] at this
  exact Bool.noConfusion this

/-- C7 on `mixedLocationNodes`: the read of the variable that is not
storage-located is not reported. -/
theorem non_storage_exemption_witness :
    checkUnassignedStorageReturnValues exampleAst mixedLocationNodes 2 0 1
      = some [occurrencePtr 0 3] ∧
    exampleAst.dataStoredInStorage (mixedLocationNodes.deref (occurrencePtr 0 1)).declaration
      = false ∧
    occurrencePtr 0 1 ∉ [occurrencePtr 0 3] :=
  ⟨by decide, by decide,
    ((non_storage_exemption exampleAst mixedLocationNodes 0 1).2 2 [occurrencePtr 0 3]
      (by decide)).2 (occurrencePtr 0 1) (by decide)⟩

/-! ## C8: only nodes that reach the exit contribute -/

theorem revertingNodes_not_reaches : ¬ revertingNodes.reaches 1 4 := by
  intro h
  rcases Relation.ReflTransGen.cases_head h with h1 | ⟨c, hc, hrest⟩
  · exact absurd h1 (by decide)
  · have hc3 : c = 3 := by
      have : c ∈ [3] := hc
      simpa using this
    subst hc3
    rcases Relation.ReflTransGen.cases_head hrest with h2 | ⟨d, hd, -⟩
    · exact absurd h2 (by decide)
    · have : d ∈ ([] : List Nat) := hd
      simp at this

/-- C8 (revert-path exemption): every member of `unassignedAccess[m]`, in every
iteration, belongs to the block of a node from which `m` is reachable along
`exits` edges, so every occurrence that a finished pass reports belongs to a
node from which the function's exit node is reachable (the exit node itself
included); an occurrence in a node from which the exit node is not reachable
is not reported. -/
theorem revert_path_exemption (ast : AST) (g : NodeContainer)
    (functionEntry functionExit : Nat) :
    (∀ k m, ∀ o ∈ (iterations ast g functionEntry k).unassignedAccess m, g.reaches o.node m) ∧
    (∀ fuel ds,
      checkUnassignedStorageReturnValues ast g fuel functionEntry functionExit = some ds →
      (∀ o ∈ ds, g.reaches o.node functionExit) ∧
      (∀ n i, ¬ g.reaches n functionExit → occurrencePtr n i ∉ ds)) := by
  refine ⟨fun k m o ho => flagged_reaches ast g functionEntry k m o ho, fun fuel ds h => ?_⟩
  obtain ⟨k, _, hds⟩ := mem_check ast g fuel functionEntry functionExit ds h
  have key : ∀ o ∈ ds, g.reaches o.node functionExit := by
    intro o ho
    rw [hds, mem_report] at ho
    exact flagged_reaches ast g functionEntry k functionExit o ho
  exact ⟨key, fun n i hn ho => hn (key _ ho)⟩

/-- C8 on `revertingNodes`: the read of node 2 is reported, the read of node 1,
which leads to the revert node only, is not. -/
theorem revert_path_exemption_witness :
    checkUnassignedStorageReturnValues exampleAst revertingNodes 6 0 4
      = some [occurrencePtr 2 0] ∧
    revertingNodes.reaches 2 4 ∧ ¬ revertingNodes.reaches 1 4 ∧
    occurrencePtr 1 0 ∉ [occurrencePtr 2 0] :=
  ⟨by decide,
    ((revert_path_exemption exampleAst revertingNodes 0 4).2 6 [occurrencePtr 2 0]
      (by decide)).1 (occurrencePtr 2 0) (by simp),
    revertingNodes_not_reaches,
    ((revert_path_exemption exampleAst revertingNodes 0 4).2 6 [occurrencePtr 2 0]
      (by decide)).2 1 0 revertingNodes_not_reaches⟩

/-! ## C9: the order of the diagnostics -/

/-- C9 (deterministic ordering): whatever state the worklist loop ends in, the
reporting part emits every member of `unassignedAccess[exit]` exactly once and
sorted ascending by the lexicographic key (id of the occurrence's AST node,
id of the declaration, kind), so a diagnostic whose occurrence id is smaller
is emitted at an earlier position; the diagnostics of a finished pass are
that list for the state the loop ended in. -/
theorem deterministic_ordering (ast : AST) (g : NodeContainer)
    (functionEntry functionExit : Nat) :
    (∀ s : State,
      (∀ o, o ∈ report ast g functionExit s ↔ o ∈ s.unassignedAccess functionExit) ∧
      (report ast g functionExit s).Nodup ∧
      (report ast g functionExit s).length = (s.unassignedAccess functionExit).card ∧
      (report ast g functionExit s).Pairwise
        (fun a b => sortKey ast g a ≤ sortKey ast g b) ∧
      (∀ i j (hi : i < (report ast g functionExit s).length)
          (hj : j < (report ast g functionExit s).length),
        ast.occurrenceId (g.deref (report ast g functionExit s)[i]).occurrence
          < ast.occurrenceId (g.deref (report ast g functionExit s)[j]).occurrence → i < j)) ∧
    (∀ fuel ds,
      checkUnassignedStorageReturnValues ast g fuel functionEntry functionExit = some ds →
      ∃ s, worklist ast g fuel (initialState functionEntry) = some s ∧
        ds = report ast g functionExit s) := by
  refine ⟨fun s => ?_, fun fuel ds h => ?_⟩
  · have hsorted := sorted_report ast g functionExit s
    have hnodup := nodup_report ast g functionExit s
    refine ⟨mem_report ast g functionExit s, hnodup, ?_, hsorted, ?_⟩
    · rw [← List.toFinset_card_of_nodup hnodup]
      congr 1
      ext o
      rw [List.mem_toFinset, mem_report]
    · intro i j hi hj hlt
      by_contra hij
      rcases Nat.lt_or_eq_of_le (Nat.le_of_not_lt hij) with hji | hji
      · have hle := List.pairwise_iff_getElem.mp hsorted j i hj hi hji
        rw [sortKey, sortKey, Prod.Lex.le_iff] at hle
        simp only [ofLex_toLex] at hle
        omega
      · subst hji
        exact lt_irrefl _ hlt
  · unfold checkUnassignedStorageReturnValues at h
    rcases hw : worklist ast g fuel (initialState functionEntry) with _ | s
    · simp [hw] at h
    · simp only [hw, Option.map_some', Option.some.injEq] at h
      exact ⟨s, rfl, h.symm⟩

/-- C9 on `twoAccessNodes`: the read with occurrence id 3 is emitted before
the read with occurrence id 5, which the traversal finds first. -/
theorem deterministic_ordering_witness :
    checkUnassignedStorageReturnValues exampleAst twoAccessNodes 2 0 1
      = some [occurrencePtr 0 2, occurrencePtr 0 1] ∧
    exampleAst.occurrenceId (twoAccessNodes.deref (occurrencePtr 0 2)).occurrence = 3 ∧
    exampleAst.occurrenceId (twoAccessNodes.deref (occurrencePtr 0 1)).occurrence = 5 ∧
    ∃ s, worklist exampleAst twoAccessNodes 2 (initialState 0) = some s ∧
      [occurrencePtr 0 2, occurrencePtr 0 1] = report exampleAst twoAccessNodes 1 s ∧
      (report exampleAst twoAccessNodes 1 s).Pairwise
        (fun a b => sortKey exampleAst twoAccessNodes a ≤ sortKey exampleAst twoAccessNodes b) := by
  obtain ⟨s, hs, hds⟩ := (deterministic_ordering exampleAst twoAccessNodes 0 1).2 2
    [occurrencePtr 0 2, occurrencePtr 0 1] (by decide)
  exact ⟨by decide, by decide, by decide, s, hs, hds,
    ((deterministic_ordering exampleAst twoAccessNodes 0 1).1 s).2.2.2.1⟩

/-! ## C10: the order of the exits lists -/

/-- C10, the code at the failing input: `lateDeclarationNodes [1, 2]` and
`lateDeclarationNodes [2, 1]` differ only in the order of the entry node's
exits list, the pass finishes on both, and it reports the read at position 0
of node 3 on the first and nothing on the second. -/
theorem report_depends_on_exits_order :
    List.Perm [1, 2] [2, 1] ∧
    (∀ fuel, checkUnassignedStorageReturnValues exampleAst (lateDeclarationNodes [1, 2])
      (fuel + 8) 0 4 = some [occurrencePtr 3 0]) ∧
    (∀ fuel, checkUnassignedStorageReturnValues exampleAst (lateDeclarationNodes [2, 1])
      (fuel + 8) 0 4 = some []) := by
  refine ⟨List.Perm.swap _ _ _, fun fuel => ?_, fun fuel => ?_⟩
  · rw [check_of_empty_at exampleAst (lateDeclarationNodes [1, 2]) (fuel + 8) 8 0 4 (by decide)
      (by omega)]
    decide
  · rw [check_of_empty_at exampleAst (lateDeclarationNodes [2, 1]) (fuel + 8) 8 0 4 (by decide)
      (by omega)]
    decide

/-! ## C11: the result of `analyze` -/

theorem transferFrom_of_no_declaration (ast : AST) (node : Nat) (l : List VariableOccurrence)
    (hl : ∀ vo ∈ l, vo.kind ≠ Kind.Declaration) :
    transferFrom ast node 0 l (∅, ∅) = (∅, ∅) := by
  have h1 : ∀ (l' : List VariableOccurrence), (∀ vo ∈ l', vo.kind ≠ Kind.Declaration) →
      (transferFrom ast node 0 l' (∅, ∅)).1 = ∅ := by
    intro l' hl'
    apply Finset.eq_empty_of_forall_not_mem
    intro x
    exact not_mem_transferFrom_fst ast node x l' 0 (∅, ∅) (by simp)
      (fun vo hvo h => hl' vo hvo h.1)
  have h2 : (transferFrom ast node 0 l (∅, ∅)).2 = ∅ := by
    apply Finset.eq_empty_of_forall_not_mem
    intro o ho
    rcases mem_transferFrom_snd ast node l 0 (∅, ∅) o ho with h | ⟨k, vo, -, -, -, -, hmem⟩
    · simp at h
    · rw [h1 (l.take k) (fun vo hvo => hl vo (List.mem_of_mem_take hvo))] at hmem
      simp at hmem
  exact Prod.ext (h1 l hl) h2

theorem setAt_same {α : Type} (m : Nat → α) (k : Nat) : setAt m k (m k) = m := by
  funext j
  unfold setAt
  split_ifs with h
  · rw [h]
  · rfl

theorem foldl_propagate_of_empty (node : Nat) :
    ∀ (exits : List Nat),
      exits.foldl (propagate node) ⟨fun _ => ∅, fun _ => ∅, []⟩ = ⟨fun _ => ∅, fun _ => ∅, []⟩ := by
  intro exits
  induction exits with
  | nil => rfl
  | cons e rest ih =>
    have : propagate node ⟨fun _ => ∅, fun _ => ∅, []⟩ e = ⟨fun _ => ∅, fun _ => ∅, []⟩ := by
      have h1 := setAt_same (fun _ : Nat => (∅ : Finset Nat)) e
      have h2 := setAt_same (fun _ : Nat => (∅ : Finset OccurrencePtr)) e
      simp only [] at h1 h2
      simp [propagate, h1, h2]
    rw [List.foldl_cons, this, ih]

theorem step_initial_of_no_declaration (ast : AST) (g : NodeContainer) (functionEntry : Nat)
    (h : ∀ vo ∈ g.occurrences functionEntry, vo.kind ≠ Kind.Declaration) :
    step ast g (initialState functionEntry) = ⟨fun _ => ∅, fun _ => ∅, []⟩ := by
  simp only [step, initialState, visitNode]
  rw [transferFrom_of_no_declaration ast functionEntry _ h]
  have : (setAt (fun _ => (∅ : Finset Nat)) functionEntry ∅) = fun _ => ∅ :=
    setAt_same (fun _ : Nat => (∅ : Finset Nat)) functionEntry
  have h2 : (setAt (fun _ => (∅ : Finset OccurrencePtr)) functionEntry ∅) = fun _ => ∅ :=
    setAt_same (fun _ : Nat => (∅ : Finset OccurrencePtr)) functionEntry
  simp only [this, h2]
  exact foldl_propagate_of_empty functionEntry _

theorem iterations_of_no_declaration (ast : AST) (g : NodeContainer) (functionEntry : Nat)
    (h : ∀ vo ∈ g.occurrences functionEntry, vo.kind ≠ Kind.Declaration) :
    ∀ k, iterations ast g functionEntry (k + 1) = ⟨fun _ => ∅, fun _ => ∅, []⟩ := by
  intro k
  induction k with
  | zero => exact step_initial_of_no_declaration ast g functionEntry h
  | succ k ih =>
    show step ast g (iterations ast g functionEntry (k + 1)) = _
    rw [ih]
    rfl

/-- C12: when the block of the entry node holds no `Declaration` occurrence
(an empty block in particular), the first iteration of the worklist loop pops
the entry node, leaves both maps empty at every node and pushes no successor,
so the loop ends after that one iteration: the entry node is the only node
that is ever popped, and with a budget of at least one iteration the pass
finishes and reports no diagnostic, whatever the other nodes contain. -/
theorem entry_without_declaration (ast : AST) (g : NodeContainer)
    (functionEntry functionExit : Nat)
    (h : ∀ vo ∈ g.occurrences functionEntry, vo.kind ≠ Kind.Declaration) :
    (iterations ast g functionEntry 0).nodesToTraverse = [functionEntry] ∧
    (∀ k, (iterations ast g functionEntry (k + 1)).nodesToTraverse = [] ∧
      (∀ n, (iterations ast g functionEntry (k + 1)).unassigned n = ∅ ∧
        (iterations ast g functionEntry (k + 1)).unassignedAccess n = ∅)) ∧
    (∀ n, traversed ast g functionEntry n ↔ n = functionEntry) ∧
    (∀ fuel, checkUnassignedStorageReturnValues ast g (fuel + 1) functionEntry functionExit
      = some []) := by
  have hit := iterations_of_no_declaration ast g functionEntry h
  refine ⟨rfl, fun k => ?_, fun n => ⟨?_, ?_⟩, fun fuel => ?_⟩
  · rw [hit k]
    exact ⟨rfl, fun n => ⟨rfl, rfl⟩⟩
  · rintro ⟨k, hk⟩
    cases k with
    | zero =>
      have : (iterations ast g functionEntry 0).nodesToTraverse = [functionEntry] := rfl
      rw [this] at hk
      simpa using hk.symm
    | succ k =>
      rw [hit k] at hk
      simp at hk
  · rintro rfl
    exact ⟨0, rfl⟩
  · have h1 : ((step ast g)^[1] (initialState functionEntry)).nodesToTraverse = [] := by
      rw [← iterations_eq_iterate, hit 0]
    rw [check_of_empty_at ast g (fuel + 1) 1 functionEntry functionExit h1 (by omega),
      ← iterations_eq_iterate, hit 0]
    rfl

/-- C12 on `branchBlockNodes`, whose entry block is empty and whose node 1
declares and reads a storage-located variable. -/
theorem entry_without_declaration_witness :
    (∀ vo ∈ branchBlockNodes.occurrences 0, vo.kind ≠ Kind.Declaration) ∧
    ¬ traversed exampleAst branchBlockNodes 0 1 ∧
    checkUnassignedStorageReturnValues exampleAst branchBlockNodes (0 + 1) 0 2 = some [] :=
  ⟨by decide,
    fun ht => absurd
      (((entry_without_declaration exampleAst branchBlockNodes 0 2 (by decide)).2.2.1 1).mp ht)
      (by decide),
    (entry_without_declaration exampleAst branchBlockNodes 0 2 (by decide)).2.2.2 0⟩

/-! ## C13: the transfer of a block on the unassigned set -/

theorem lastWrite_append_singleton (l : List VariableOccurrence) (vo : VariableOccurrence)
    (v : Nat) :
    lastWrite (l ++ [vo]) v
      = if vo.declaration = v ∧ vo.kind ≠ Kind.Access then some vo.kind else lastWrite l v := by
  unfold lastWrite
  rw [List.filter_append]
  by_cases h : vo.declaration = v ∧ vo.kind ≠ Kind.Access
  · rw [if_pos h]
    have : List.filter (fun vo => decide (vo.declaration = v) && decide (vo.kind ≠ Kind.Access))
        [vo] = [vo] := by
      simp [List.filter, h.1, h.2]
    rw [this, List.getLast?_append]
    simp
  · rw [if_neg h]
    have : List.filter (fun vo => decide (vo.declaration = v) && decide (vo.kind ≠ Kind.Access))
        [vo] = [] := by
      simp only [List.filter_eq_nil_iff, List.mem_singleton, forall_eq, Bool.and_eq_true,
        decide_eq_true_eq]
      exact h
    rw [this, List.append_nil]

theorem transferFrom_append_singleton (ast : AST) (node i : Nat) (l : List VariableOccurrence)
    (vo : VariableOccurrence) (acc : Finset Nat × Finset OccurrencePtr) :
    transferFrom ast node i (l ++ [vo]) acc
      = transferOccurrence ast node (i + l.length) vo (transferFrom ast node i l acc) := by
  rw [transferFrom_append]
  rfl

theorem transferOccurrence_fst_of_access (ast : AST) (node i : Nat) (vo : VariableOccurrence)
    (acc : Finset Nat × Finset OccurrencePtr) (h : vo.kind = Kind.Access) :
    (transferOccurrence ast node i vo acc).1 = acc.1 := by
  unfold transferOccurrence
  rw [h]
  simp only []
  split_ifs <;> rfl

theorem mem_transferFrom_fst_iff (ast : AST) (node v : Nat) :
    ∀ (l : List VariableOccurrence) (i : Nat) (acc : Finset Nat × Finset OccurrencePtr),
      v ∈ (transferFrom ast node i l acc).1 ↔
        lastWrite l v = some Kind.Declaration ∨ (lastWrite l v = none ∧ v ∈ acc.1) := by
  intro l
  induction l using List.reverseRecOn with
  | nil =>
    intro i acc
    simp [transferFrom, lastWrite]
  | append_singleton l vo ih =>
    intro i acc
    rw [transferFrom_append_singleton, lastWrite_append_singleton]
    have ih' := ih i acc
    rcases vo with ⟨d, kd, oc⟩
    by_cases hd : d = v
    · cases kd
      · simp [transferOccurrence, hd]
      · rw [transferOccurrence_fst_of_access _ _ _ _ _ rfl]
        simpa using ih'
      · simp [transferOccurrence, hd]
      · simp [transferOccurrence, hd]
    · have hne : v ≠ d := fun h => hd h.symm
      cases kd
      · simp only [transferOccurrence, Finset.mem_insert, hne, false_or, hd, false_and, if_false]
        exact ih'
      · rw [transferOccurrence_fst_of_access _ _ _ _ _ rfl]
        simpa [hd] using ih'
      · simp only [transferOccurrence, Finset.mem_erase, ne_eq, hne, not_false_eq_true, true_and,
          hd, false_and, if_false]
        exact ih'
      · simp only [transferOccurrence, Finset.mem_erase, ne_eq, hne, not_false_eq_true, true_and,
          hd, false_and, if_false]
        exact ih'

theorem transferFrom_fst_filter (ast : AST) (node : Nat) :
    ∀ (l : List VariableOccurrence) (i j : Nat) (S : Finset Nat) (A B : Finset OccurrencePtr),
      (transferFrom ast node i l (S, A)).1
        = (transferFrom ast node j (l.filter fun vo => decide (vo.kind ≠ Kind.Access)) (S, B)).1 := by
  intro l i j S A B
  ext v
  rw [mem_transferFrom_fst_iff, mem_transferFrom_fst_iff]
  have : lastWrite (l.filter fun vo => decide (vo.kind ≠ Kind.Access)) v = lastWrite l v := by
    unfold lastWrite
    rw [List.filter_filter]
    congr 3
    funext vo
    cases decide (vo.declaration = v) <;> cases decide (vo.kind ≠ Kind.Access) <;> rfl
  rw [this]

/-- C13: the transfer of a block on the unassigned set is decided, variable by
variable, by the last occurrence of the variable among the kinds
`Declaration`, `Assignment` and `InlineAssembly`.  After the occurrences of a
block have been applied to the incoming set `S`, and so after one visit of a
node whose recorded set is `S` when it is popped, `v` is in the node's set iff
that last occurrence is a `Declaration`, or the block holds no such occurrence
and `v` is in `S`.  An `Access` occurrence leaves the unassigned set as it is,
and the result is that of the block without its `Access` occurrences. -/
theorem local_transfer_by_last_write (ast : AST) :
    (∀ (node i : Nat) (l : List VariableOccurrence) (S : Finset Nat) (A : Finset OccurrencePtr)
        (v : Nat),
      v ∈ (transferFrom ast node i l (S, A)).1 ↔
        lastWrite l v = some Kind.Declaration ∨ (lastWrite l v = none ∧ v ∈ S)) ∧
    (∀ (g : NodeContainer) (node : Nat) (rest : List Nat) (s : State) (v : Nat),
      v ∈ (visitNode ast g node rest s).unassigned node ↔
        lastWrite (g.occurrences node) v = some Kind.Declaration ∨
          (lastWrite (g.occurrences node) v = none ∧ v ∈ s.unassigned node)) ∧
    (∀ (node i : Nat) (vo : VariableOccurrence) (S : Finset Nat) (A : Finset OccurrencePtr),
      vo.kind = Kind.Access → (transferOccurrence ast node i vo (S, A)).1 = S) ∧
    (∀ (node i j : Nat) (l : List VariableOccurrence) (S : Finset Nat)
        (A B : Finset OccurrencePtr),
      (transferFrom ast node i l (S, A)).1
        = (transferFrom ast node j (l.filter fun vo => decide (vo.kind ≠ Kind.Access)) (S, B)).1) := by
  refine ⟨fun node i l S A v => mem_transferFrom_fst_iff ast node v l i (S, A),
    fun g node rest s v => ?_,
    fun node i vo S A h => transferOccurrence_fst_of_access ast node i vo (S, A) h,
    fun node i j l S A B => transferFrom_fst_filter ast node l i j S A B⟩
  rw [(visitNode_facts ast g node rest s).1]
  exact mem_transferFrom_fst_iff ast node v (g.occurrences node) 0 _

/-- C13 on `lastWriteBlock` with the incoming set `{2, 3}`: `x` is declared
last and enters the set, `y` is assigned last and leaves it, `z` is only read
and stays. -/
theorem local_transfer_by_last_write_witness :
    lastWrite lastWriteBlock 1 = some Kind.Declaration ∧
    lastWrite lastWriteBlock 2 = some Kind.Assignment ∧
    lastWrite lastWriteBlock 3 = none ∧
    (transferFrom exampleAst 0 0 lastWriteBlock ({2, 3}, ∅)).1 = {1, 3} ∧
    (1 ∈ (transferFrom exampleAst 0 0 lastWriteBlock ({2, 3}, ∅)).1 ↔
      lastWrite lastWriteBlock 1 = some Kind.Declaration ∨
        (lastWrite lastWriteBlock 1 = none ∧ 1 ∈ ({2, 3} : Finset Nat))) ∧
    (transferOccurrence exampleAst 0 5 ⟨3, .Access, 15⟩ ({3}, ∅)).1 = {3} :=
  ⟨by decide, by decide, by decide, by decide,
    (local_transfer_by_last_write exampleAst).1 0 0 lastWriteBlock {2, 3} ∅ 1,
    (local_transfer_by_last_write exampleAst).2.2.1 0 5 ⟨3, .Access, 15⟩ {3} ∅ rfl⟩

/-! ## C14: whether the recorded sets shrink -/

/-- C14, the code at the failing input: on `assignedLaterNodes` the first
iteration records `unassigned[1] = {x}`, and the second iteration, which pops
node 1, erases `x` from that recorded set and leaves it empty, so the set after
the iteration is not a superset of the set before it; the pass finishes after
the second iteration.  The other half of the claim holds on every graph: an
iteration never removes a member of a recorded `unassignedAccess` set. -/
theorem recorded_unassigned_shrinks :
    (iterations exampleAst assignedLaterNodes 0 1).unassigned 1 = {1} ∧
    (iterations exampleAst assignedLaterNodes 0 1).nodesToTraverse = [1] ∧
    (iterations exampleAst assignedLaterNodes 0 2).unassigned 1 = ∅ ∧
    ¬ ((iterations exampleAst assignedLaterNodes 0 1).unassigned 1
        ⊆ (step exampleAst assignedLaterNodes
            (iterations exampleAst assignedLaterNodes 0 1)).unassigned 1) ∧
    checkUnassignedStorageReturnValues exampleAst assignedLaterNodes 2 0 2 = some [] ∧
    (∀ (ast : AST) (g : NodeContainer) (s : State) (n : Nat),
      s.unassignedAccess n ⊆ (step ast g s).unassignedAccess n) :=
  ⟨by decide, by decide, by decide, by decide, by decide,
    fun ast g s n => step_unassignedAccess_mono ast g s n⟩

/-! ## C15: running the worklist loop again on the maps it left behind -/

theorem transferFrom_fst_congr (ast : AST) (node i j : Nat) (l : List VariableOccurrence)
    (S : Finset Nat) (A B : Finset OccurrencePtr) :
    (transferFrom ast node i l (S, A)).1 = (transferFrom ast node j l (S, B)).1 := by
  ext v
  rw [mem_transferFrom_fst_iff, mem_transferFrom_fst_iff]

/-- C16: when the worklist loop has terminated (the stack is empty after `k`
iterations, or the loop returns the state `s`), `unassignedAccess[n]` is a
subset of `unassignedAccess[m]` for every node `n` and every `m` in
`n.exits`, hence of `unassignedAccess[m]` for every `m` reachable from `n`;
so an access recorded at a node from which the exit node is reachable is in
`unassignedAccess[exit]` and is one of the reported diagnostics. -/
theorem closed_along_edges (ast : AST) (g : NodeContainer) (functionEntry functionExit : Nat) :
    (∀ k, (iterations ast g functionEntry k).nodesToTraverse = [] →
      (∀ n, ∀ m ∈ g.exits n, (iterations ast g functionEntry k).unassignedAccess n
        ⊆ (iterations ast g functionEntry k).unassignedAccess m) ∧
      (∀ n, g.reaches n functionExit → (iterations ast g functionEntry k).unassignedAccess n
        ⊆ (iterations ast g functionEntry k).unassignedAccess functionExit)) ∧
    (∀ fuel s, worklist ast g fuel (initialState functionEntry) = some s →
      (∀ n, ∀ m ∈ g.exits n, s.unassignedAccess n ⊆ s.unassignedAccess m) ∧
      (∀ n, g.reaches n functionExit → s.unassignedAccess n ⊆ s.unassignedAccess functionExit) ∧
      checkUnassignedStorageReturnValues ast g fuel functionEntry functionExit
        = some (report ast g functionExit s) ∧
      (∀ n o, g.reaches n functionExit → o ∈ s.unassignedAccess n →
        o ∈ report ast g functionExit s)) := by
  have key : ∀ k, (iterations ast g functionEntry k).nodesToTraverse = [] →
      (∀ n, ∀ m ∈ g.exits n, (iterations ast g functionEntry k).unassignedAccess n
        ⊆ (iterations ast g functionEntry k).unassignedAccess m) ∧
      (∀ n, g.reaches n functionExit → (iterations ast g functionEntry k).unassignedAccess n
        ⊆ (iterations ast g functionEntry k).unassignedAccess functionExit) := by
    intro k hk
    refine ⟨fun n m hm => ?_, fun n hn => closed_reaches ast g functionEntry k hk n functionExit hn⟩
    exact closed_iterations ast g functionEntry k n (by rw [hk]; simp) m hm
  refine ⟨key, fun fuel s hs => ?_⟩
  obtain ⟨k, -, hsk, hempty⟩ := worklist_initial_some ast g fuel functionEntry s hs
  rw [hsk] at hempty
  obtain ⟨h1, h2⟩ := key k hempty
  rw [← hsk] at h1 h2
  refine ⟨h1, h2, ?_, fun n o hn ho => ?_⟩
  · unfold checkUnassignedStorageReturnValues
    rw [hs]
    rfl
  · rw [mem_report]
    exact h2 n hn ho

/-- C16 on `revertingNodes`: the read recorded at node 2, from which the exit
node 4 is reachable, is in the exit's set and is reported. -/
theorem closed_along_edges_witness :
    ∃ s, worklist exampleAst revertingNodes 6 (initialState 0) = some s ∧
      occurrencePtr 2 0 ∈ s.unassignedAccess 2 ∧ revertingNodes.reaches 2 4 ∧
      s.unassignedAccess 2 ⊆ s.unassignedAccess 4 ∧
      occurrencePtr 2 0 ∈ report exampleAst revertingNodes 4 s := by
  have hw := worklist_of_empty_at exampleAst revertingNodes 6 6 (initialState 0) (by decide)
    (le_refl _)
  have hmem : occurrencePtr 2 0
      ∈ ((step exampleAst revertingNodes)^[6] (initialState 0)).unassignedAccess 2 := by decide
  have hreach : revertingNodes.reaches 2 4 :=
    Relation.ReflTransGen.single (show revertingNodes.edge 2 4 by decide)
  exact ⟨_, hw, hmem, hreach,
    ((closed_along_edges exampleAst revertingNodes 0 4).2 6 _ hw).2.1 2 hreach,
    ((closed_along_edges exampleAst revertingNodes 0 4).2 6 _ hw).2.2.2 2 _ hreach hmem⟩

/-! ## C17: a flag is never retracted -/

/-- C17: a member of `unassignedAccess[n]` stays a member through every later
iteration of the worklist loop: one iteration never removes a member of any
`unassignedAccess` set, whatever occurrences the popped block holds (the
transfer of a block only ever adds to the set it is given), so what is in the
set after `k` iterations is in it after `k + d` iterations, and a member of
`unassignedAccess[exit]` at any iteration is reported when the pass finishes. -/
theorem flag_never_retracted (ast : AST) (g : NodeContainer) (functionEntry functionExit : Nat) :
    (∀ k d n o, o ∈ (iterations ast g functionEntry k).unassignedAccess n →
      o ∈ (iterations ast g functionEntry (k + d)).unassignedAccess n) ∧
    (∀ (s : State) n o, o ∈ s.unassignedAccess n → o ∈ (step ast g s).unassignedAccess n) ∧
    (∀ (node i : Nat) (l : List VariableOccurrence) (S : Finset Nat) (A : Finset OccurrencePtr) o,
      o ∈ A → o ∈ (transferFrom ast node i l (S, A)).2) ∧
    (∀ k fuel ds o, o ∈ (iterations ast g functionEntry k).unassignedAccess functionExit →
      checkUnassignedStorageReturnValues ast g fuel functionEntry functionExit = some ds →
      o ∈ ds) := by
  refine ⟨fun k d n o ho => iterations_unassignedAccess_mono ast g functionEntry n k d ho,
    fun s n o ho => step_unassignedAccess_mono ast g s n ho,
    fun node i l S A o ho => transferFrom_snd_mono ast node l i (S, A) ho,
    fun k fuel ds o ho hds => ?_⟩
  obtain ⟨K, hK, hrep⟩ := mem_check ast g fuel functionEntry functionExit ds hds
  rw [hrep, mem_report]
  rcases Nat.le_total k K with hle | hle
  · obtain ⟨d, rfl⟩ := Nat.exists_eq_add_of_le hle
    exact iterations_unassignedAccess_mono ast g functionEntry functionExit k d ho
  · obtain ⟨d, rfl⟩ := Nat.exists_eq_add_of_le hle
    rw [iterations_add_of_empty ast g functionEntry K hK d] at ho
    exact ho

/-- C17 on `assignedAfterReadNodes`: the read flagged in the first iteration
is followed by an assignment in its own block and by another in the next
block, is still in the sets afterwards and is reported. -/
theorem flag_never_retracted_witness :
    occurrencePtr 0 1 ∈ (iterations exampleAst assignedAfterReadNodes 0 1).unassignedAccess 0 ∧
    occurrencePtr 0 1
      ∈ (iterations exampleAst assignedAfterReadNodes 0 (1 + 2)).unassignedAccess 0 ∧
    occurrencePtr 0 1 ∈ (iterations exampleAst assignedAfterReadNodes 0 3).unassignedAccess 2 ∧
    checkUnassignedStorageReturnValues exampleAst assignedAfterReadNodes 3 0 2
      = some [occurrencePtr 0 1] ∧
    occurrencePtr 0 1 ∈ [occurrencePtr 0 1] :=
  ⟨by decide,
    (flag_never_retracted exampleAst assignedAfterReadNodes 0 2).1 1 2 0 _ (by decide),
    by decide, by decide,
    (flag_never_retracted exampleAst assignedAfterReadNodes 0 2).2.2.2 3 3 _ _ (by decide)
      (by decide)⟩

/-! ## C18: a variable enters the analysis through its declaration -/

theorem reaches_of_mem_chain (g : NodeContainer) (n : Nat) :
    ∀ (path : List Nat), List.Chain' g.edge (path ++ [n]) → ∀ d ∈ path ++ [n], g.reaches d n := by
  intro path
  induction path with
  | nil =>
    intro _ d hd
    have : d = n := by simpa using hd
    rw [this]
    exact Relation.ReflTransGen.refl
  | cons a rest ih =>
    intro hchain d hd
    have hrest : List.Chain' g.edge (rest ++ [n]) := by
      have := List.Chain'.tail hchain
      simpa using this
    rcases List.mem_cons.mp hd with hda | hdr
    · rw [hda]
      cases hr : rest ++ [n] with
      | nil => simp at hr
      | cons b tl =>
        have hab : g.edge a b := by
          have h' : List.Chain' g.edge (a :: b :: tl) := by
            rw [← hr]
            exact hchain
          exact (List.chain'_cons.mp h').1
        have hb : b ∈ rest ++ [n] := by
          rw [hr]
          exact List.mem_cons_self _ _
        exact Relation.ReflTransGen.head hab (ih hrest b hb)
    · exact ih hrest d hdr

theorem declaration_of_live {l : List VariableOccurrence} {x : Nat} (h : live l x) :
    ∃ vo ∈ l, vo.kind = Kind.Declaration ∧ vo.declaration = x := by
  obtain ⟨pre, mid, decl, hl, hk, hd, -⟩ := h
  exact ⟨decl, by rw [hl]; simp, hk, hd⟩

theorem declaredUpstream_of_live_path (g : NodeContainer) (e n x : Nat) (path : List Nat)
    (tail : List VariableOccurrence) (hpath : pathTo g e path n)
    (htail : ∀ vo ∈ tail, vo ∈ g.occurrences n)
    (h : live (path.flatMap g.occurrences ++ tail) x) : declaredUpstream g n x := by
  obtain ⟨vo, hvo, hk, hd⟩ := declaration_of_live h
  rcases List.mem_append.mp hvo with hin | hin
  · obtain ⟨d, hdpath, hvod⟩ := List.mem_flatMap.mp hin
    exact ⟨d, reaches_of_mem_chain g n path hpath.1 d (List.mem_append_left _ hdpath),
      vo, hvod, hk, hd⟩
  · exact ⟨n, Relation.ReflTransGen.refl, vo, htail vo hin, hk, hd⟩

theorem recorded_declaredUpstream (ast : AST) (g : NodeContainer) (e k n x : Nat)
    (h : x ∈ (iterations ast g e k).unassigned n) : declaredUpstream g n x := by
  obtain ⟨path, hpath, hlive | hlive⟩ := recorded_carried ast g e k n x h
  · have h' : live (path.flatMap g.occurrences ++ []) x := by
      rw [List.append_nil]
      exact hlive
    exact declaredUpstream_of_live_path g e n x path [] hpath (by simp) h'
  · exact declaredUpstream_of_live_path g e n x path _ hpath (fun _ hvo => hvo) hlive

theorem flagged_declaredUpstream (ast : AST) (g : NodeContainer) (e k m : Nat)
    (o : OccurrencePtr) (h : o ∈ (iterations ast g e k).unassignedAccess m) :
    declaredUpstream g o.node (g.deref o).declaration := by
  by_cases hown : ∃ vo ∈ g.occurrences o.node,
      vo.kind = Kind.Declaration ∧ vo.declaration = (g.deref o).declaration
  · obtain ⟨vo, hvo, hk, hd⟩ := hown
    exact ⟨o.node, Relation.ReflTransGen.refl, vo, hvo, hk, hd⟩
  · have hfree : ∀ vo ∈ (g.occurrences o.node).drop (o.index + 1),
        ¬ (vo.kind = Kind.Declaration ∧ vo.declaration = (g.deref o).declaration) :=
      fun vo hvo hc => hown ⟨vo, List.mem_of_mem_drop hvo, hc.1, hc.2⟩
    obtain ⟨path, hpath, hlive⟩ := flagged_on_path ast g e k m o h hfree
    exact declaredUpstream_of_live_path g e o.node _ path _ hpath
      (fun _ hvo => List.mem_of_mem_take hvo) hlive

/-- C18: a variable enters the analysis only through its declaration.  At
every iteration and for every node `n`, each variable in `unassigned[n]` has a
`Declaration` occurrence in the block of `n` or of a node from which `n` is
reachable along `exits` edges; every member of an `unassignedAccess` set, and
so every reported occurrence, is an `Access(x)` for which the graph holds a
`Declaration(x)` in the access's own node or in a node that reaches it; and an
`Access(x)` without such a declaration is not reported. -/
theorem enters_through_declaration (ast : AST) (g : NodeContainer)
    (functionEntry functionExit : Nat) :
    (∀ k n x, x ∈ (iterations ast g functionEntry k).unassigned n → declaredUpstream g n x) ∧
    (∀ k m o, o ∈ (iterations ast g functionEntry k).unassignedAccess m →
      (g.deref o).kind = Kind.Access ∧ declaredUpstream g o.node (g.deref o).declaration) ∧
    (∀ fuel ds,
      checkUnassignedStorageReturnValues ast g fuel functionEntry functionExit = some ds →
      (∀ o ∈ ds, (g.deref o).kind = Kind.Access ∧
        declaredUpstream g o.node (g.deref o).declaration) ∧
      (∀ o, ¬ declaredUpstream g o.node (g.deref o).declaration → o ∉ ds)) := by
  have hacc : ∀ k m o, o ∈ (iterations ast g functionEntry k).unassignedAccess m →
      (g.deref o).kind = Kind.Access ∧ declaredUpstream g o.node (g.deref o).declaration :=
    fun k m o ho => ⟨(flagged_is_storage_access ast g functionEntry k m o ho).2.1,
      flagged_declaredUpstream ast g functionEntry k m o ho⟩
  refine ⟨fun k n x h => recorded_declaredUpstream ast g functionEntry k n x h, hacc,
    fun fuel ds hds => ?_⟩
  obtain ⟨K, -, hrep⟩ := mem_check ast g fuel functionEntry functionExit ds hds
  have key : ∀ o ∈ ds, (g.deref o).kind = Kind.Access ∧
      declaredUpstream g o.node (g.deref o).declaration := by
    intro o ho
    rw [hrep, mem_report] at ho
    exact hacc K functionExit o ho
  exact ⟨key, fun o hno ho => hno (key o ho).2⟩

theorem undeclaredReadNodes_no_declaration (n : Nat) :
    ¬ declaredUpstream undeclaredReadNodes n 5 := by
  rintro ⟨d, -, vo, hvo, hk, hd⟩
  match d, hvo with
  | 0, hvo =>
    have : vo ∈ [(⟨1, .Declaration, 10⟩ : VariableOccurrence)] := hvo
    simp only [List.mem_singleton] at this
    rw [this] at hd
    exact absurd hd (by decide)
  | 1, hvo =>
    have : vo ∈ [(⟨5, .Access, 11⟩ : VariableOccurrence), ⟨1, .Access, 12⟩] := hvo
    simp only [List.mem_cons, List.mem_singleton, List.not_mem_nil, or_false] at this
    rcases this with h | h <;> rw [h] at hk <;> exact absurd hk (by decide)
  | 2, hvo =>
    have : vo ∈ ([] : List VariableOccurrence) := hvo
    simp at this
  | d + 3, hvo =>
    have : vo ∈ ([] : List VariableOccurrence) := hvo
    simp at this

/-- C18 on `undeclaredReadNodes`: the read of `x`, declared in the entry block,
is reported; the read of the variable that is declared nowhere is not. -/
theorem enters_through_declaration_witness :
    checkUnassignedStorageReturnValues exampleAst undeclaredReadNodes 3 0 2
      = some [occurrencePtr 1 1] ∧
    declaredUpstream undeclaredReadNodes 1 1 ∧
    ¬ declaredUpstream undeclaredReadNodes 1 5 ∧
    occurrencePtr 1 0 ∉ [occurrencePtr 1 1] :=
  ⟨by decide,
    (((enters_through_declaration exampleAst undeclaredReadNodes 0 2).2.2 3 [occurrencePtr 1 1]
      (by decide)).1 (occurrencePtr 1 1) (by simp)).2,
    undeclaredReadNodes_no_declaration 1,
    ((enters_through_declaration exampleAst undeclaredReadNodes 0 2).2.2 3 [occurrencePtr 1 1]
      (by decide)).2 (occurrencePtr 1 0) (undeclaredReadNodes_no_declaration 1)⟩

end ControlFlow
